import Mathlib

set_option maxHeartbeats 1000000
set_option maxRecDepth 4000

/-!
Verification of the grit repository: a shallow embedding of its patch
codec (`git/patch.go`), rule engine and sync engine (`main.go`), and
the repository operations of `git/repo.go`, together with proofs about
the properties claimed of them.  Byte strings of the Go code are
modelled as `List Char`.
-/

namespace Grit

/-- Byte strings of the Go source are modelled as lists of characters. -/
abbrev Str := List Char

/-- Convert a Lean string literal into the model's byte-string type. -/
def s2l (s : String) : Str := s.data

/-- Model of Go `strings.Replace(s, old, new, -1)` (and `bytes.Replace`):
replace every leftmost, non-overlapping occurrence of `old` in `s` by
`new`.  The callers in the source only use non-empty `old`; for
`old = []` this model performs no replacement. -/
def replaceAll (s old new : Str) : Str :=
  match s with
  | [] => []
  | c :: rest =>
    if h : old ≠ [] ∧ old.isPrefixOf (c :: rest) then
      new ++ replaceAll ((c :: rest).drop old.length) old new
    else
      c :: replaceAll rest old new
termination_by s.length
decreasing_by
  · have hlen : 0 < old.length := List.length_pos.mpr h.1
    simp only [List.length_drop, List.length_cons]
    omega
  · simp [Nat.lt_succ_self]

@[simp] theorem replaceAll_nil (old new : Str) : replaceAll [] old new = [] := by
  simp [replaceAll]

/-- A pattern beginning with a character not occurring in `l` finds no
occurrence inside `l`: replacement walks over `l` unchanged. -/
theorem replaceAll_append_of_not_mem (l s w r : Str) (a : Char) (hc : a ∉ l) :
    replaceAll (l ++ s) (a :: w) r = l ++ replaceAll s (a :: w) r := by
  induction l with
  | nil => simp
  | cons c l ih =>
    have hca : c ≠ a := fun h => hc (h ▸ List.mem_cons_self c l)
    have hnp : ¬((a :: w) ≠ [] ∧ (a :: w).isPrefixOf (c :: (l ++ s))) := by
      rintro ⟨-, hp⟩
      simp only [List.isPrefixOf, Bool.and_eq_true, beq_iff_eq] at hp
      exact hca hp.1.symm
    rw [List.cons_append, replaceAll, dif_neg hnp,
      ih (fun hm => hc (List.mem_cons_of_mem _ hm))]
    simp

/-- Special case: no occurrence at all when the pattern's first character
is absent. -/
theorem replaceAll_of_not_mem (l w r : Str) (a : Char) (hc : a ∉ l) :
    replaceAll l (a :: w) r = l := by
  have := replaceAll_append_of_not_mem l [] w r a hc
  simpa using this

theorem replaceAll_cons_match (t w r : Str) (a : Char)
    (h : w.isPrefixOf t) :
    replaceAll (a :: t) (a :: w) r = r ++ replaceAll (t.drop w.length) (a :: w) r := by
  rw [replaceAll, dif_pos]
  · simp
  · refine ⟨by simp, ?_⟩
    simp [List.isPrefixOf, h]

theorem replaceAll_cons_nomatch (t w r : Str) (a : Char)
    (h : w.isPrefixOf t = false) :
    replaceAll (a :: t) (a :: w) r = a :: replaceAll t (a :: w) r := by
  rw [replaceAll, dif_neg]
  rintro ⟨-, hp⟩
  simp only [List.isPrefixOf, Bool.and_eq_true, beq_iff_eq] at hp
  rw [hp.2] at h
  simp at h

theorem replaceAll_cons_diff (t w r : Str) (a b : Char) (hab : b ≠ a) :
    replaceAll (b :: t) (a :: w) r = b :: replaceAll t (a :: w) r := by
  rw [replaceAll, dif_neg]
  rintro ⟨-, hp⟩
  simp only [List.isPrefixOf, Bool.and_eq_true, beq_iff_eq] at hp
  exact hab hp.1.symm

/-- Join a list of lines, writing a newline before each line. -/
def nlJoin : List Str → Str
  | [] => []
  | l :: ls => '\n' :: (l ++ nlJoin ls)

/-- `nlJoin` produces either the empty string or a string starting with a
newline. -/
theorem nlJoin_cases (ls : List Str) :
    nlJoin ls = [] ∨ ∃ t : Str, nlJoin ls = '\n' :: t := by
  cases ls with
  | nil => exact Or.inl rfl
  | cons l ls => exact Or.inr ⟨l ++ nlJoin ls, rfl⟩

/-- Whether `w` (newline-free) is a prefix of `l ++ '\n' :: X` depends only
on the newline-free part `l`. -/
theorem isPrefixOf_append_nl (w l X : Str) (hw : '\n' ∉ w) :
    w.isPrefixOf (l ++ '\n' :: X) = w.isPrefixOf l := by
  induction w generalizing l with
  | nil => simp [List.isPrefixOf]
  | cons a w ih =>
    cases l with
    | nil =>
      have : a ≠ '\n' := fun h => hw (h ▸ List.mem_cons_self a w)
      simp [List.isPrefixOf, this]
    | cons b l =>
      simp only [List.cons_append, List.isPrefixOf]
      rw [show (l.append ('\n' :: X)) = l ++ '\n' :: X from rfl,
        ih l (fun hm => hw (List.mem_cons_of_mem _ hm))]

/-- If `w` is a (boolean) prefix of `l`, then dropping `w.length` recovers
the rest: `l = w ++ l.drop w.length`. -/
theorem eq_append_drop_of_isPrefixOf (w l : Str) (h : w.isPrefixOf l) :
    l = w ++ l.drop w.length := by
  induction w generalizing l with
  | nil => simp
  | cons a w ih =>
    cases l with
    | nil => simp [List.isPrefixOf] at h
    | cons b l =>
      simp only [List.isPrefixOf, Bool.and_eq_true, beq_iff_eq] at h
      simp only [List.length_cons, List.drop_succ_cons, List.cons_append,
        h.1]
      exact congrArg (b :: ·) (ih l h.2)

theorem isPrefixOf_append_of_isPrefixOf (w l s : Str) (h : w.isPrefixOf l) :
    w.isPrefixOf (l ++ s) := by
  induction w generalizing l with
  | nil => simp [List.isPrefixOf]
  | cons a w ih =>
    cases l with
    | nil => simp [List.isPrefixOf] at h
    | cons b l =>
      simp only [List.isPrefixOf, Bool.and_eq_true, beq_iff_eq] at h ⊢
      exact ⟨h.1, ih l h.2⟩

theorem length_le_of_isPrefixOf (w l : Str) (h : w.isPrefixOf l) :
    w.length ≤ l.length := by
  have := eq_append_drop_of_isPrefixOf w l h
  have hlen := congrArg List.length this
  simp only [List.length_append] at hlen
  omega

/-- Escaping a single line: when `w` begins the line, insert the marker
`m` before it. -/
def escWith (w m l : Str) : Str := if w.isPrefixOf l then m ++ l else l

/-- The central structural fact about `replaceAll` with a pattern
`'\n' :: w` and replacement `'\n' :: m ++ w`: on a newline-joined list
of newline-free lines it escapes exactly the lines beginning with
`w`. -/
theorem replaceAll_nlJoin (w m : Str) (hw : '\n' ∉ w) :
    ∀ ls : List Str, (∀ l ∈ ls, '\n' ∉ l) →
      replaceAll (nlJoin ls) ('\n' :: w) ('\n' :: (m ++ w)) =
        nlJoin (ls.map (escWith w m)) := by
  intro ls
  induction ls with
  | nil => intro _; simp [nlJoin]
  | cons l ls ih =>
    intro hls
    have hl : '\n' ∉ l := hls l (List.mem_cons_self l ls)
    have hls' : ∀ x ∈ ls, '\n' ∉ x := fun x hx => hls x (List.mem_cons_of_mem _ hx)
    show replaceAll ('\n' :: (l ++ nlJoin ls)) _ _ = _
    cases hw1 : w.isPrefixOf l with
    | true =>
      have hpre : w.isPrefixOf (l ++ nlJoin ls) :=
        isPrefixOf_append_of_isPrefixOf w l _ hw1
      rw [replaceAll_cons_match _ _ _ _ hpre]
      have hlen : w.length ≤ l.length := length_le_of_isPrefixOf w l hw1
      have hdrop : (l ++ nlJoin ls).drop w.length = l.drop w.length ++ nlJoin ls := by
        rw [List.drop_append_eq_append_drop]
        have : w.length - l.length = 0 := by omega
        rw [this]
        simp
      rw [hdrop,
        replaceAll_append_of_not_mem _ _ _ _ _
          (fun hm => hl (List.drop_subset _ _ hm)),
        ih hls']
      have hsplit := eq_append_drop_of_isPrefixOf w l hw1
      show '\n' :: (m ++ w) ++ _ = nlJoin (escWith w m l :: _)
      rw [nlJoin, escWith, if_pos hw1]
      simp only [List.cons_append, List.append_assoc, List.cons.injEq, true_and]
      conv_rhs => rw [hsplit]
      simp [List.append_assoc]
    | false =>
      have hnp : w.isPrefixOf (l ++ nlJoin ls) = false := by
        rcases nlJoin_cases ls with h0 | ⟨t, ht⟩
        · rw [h0]; simpa using hw1
        · rw [ht, isPrefixOf_append_nl w l t hw]; exact hw1
      rw [replaceAll_cons_nomatch _ _ _ _ hnp,
        replaceAll_append_of_not_mem _ _ _ _ _ hl, ih hls']
      show _ = nlJoin (escWith w m l :: _)
      rw [nlJoin, escWith, if_neg (by simp [hw1])]

/-- Model of Go `bytes.Split(b, []byte("\n"))`: the segments of `b`
around each newline.  Always non-empty; `bytes.Split(nil, sep)` yields
one empty segment. -/
def splitNl : Str → List Str
  | [] => [[]]
  | c :: rest =>
    if c = '\n' then [] :: splitNl rest
    else
      match splitNl rest with
      | [] => [[c]]
      | l :: ls => (c :: l) :: ls

theorem splitNl_ne_nil (b : Str) : splitNl b ≠ [] := by
  cases b with
  | nil => simp [splitNl]
  | cons c rest =>
    by_cases h : c = '\n'
    · simp [splitNl, h]
    · simp only [splitNl, if_neg h]
      cases splitNl rest <;> simp

/-- Reassembling a split: the original string is the first segment
followed by the newline-joined rest. -/
theorem splitNl_reassemble (b : Str) :
    ∀ l ls, splitNl b = l :: ls → b = l ++ nlJoin ls := by
  induction b with
  | nil =>
    intro l ls h
    simp only [splitNl, List.cons.injEq] at h
    rw [← h.1, ← h.2]; rfl
  | cons c rest ih =>
    intro l ls h
    by_cases hc : c = '\n'
    · simp only [splitNl, if_pos hc, List.cons.injEq] at h
      obtain ⟨l0, ls0, h0⟩ : ∃ l0 ls0, splitNl rest = l0 :: ls0 := by
        cases hsp : splitNl rest with
        | nil => exact absurd hsp (splitNl_ne_nil rest)
        | cons x xs => exact ⟨x, xs, rfl⟩
      rw [← h.1, ← h.2, h0, hc]
      have := ih l0 ls0 h0
      simp [nlJoin, this]
    · obtain ⟨l0, ls0, h0⟩ : ∃ l0 ls0, splitNl rest = l0 :: ls0 := by
        cases hsp : splitNl rest with
        | nil => exact absurd hsp (splitNl_ne_nil rest)
        | cons x xs => exact ⟨x, xs, rfl⟩
      simp only [splitNl, if_neg hc, h0, List.cons.injEq] at h
      rw [← h.1, ← h.2]
      have := ih l0 ls0 h0
      simp [this]

/-- No segment of the split contains a newline. -/
theorem not_mem_nl_of_mem_splitNl (b : Str) :
    ∀ l ∈ splitNl b, '\n' ∉ l := by
  induction b with
  | nil => intro l hl; simp only [splitNl, List.mem_singleton] at hl; simp [hl]
  | cons c rest ih =>
    intro l hl
    by_cases hc : c = '\n'
    · simp only [splitNl, if_pos hc, List.mem_cons] at hl
      rcases hl with h | h
      · simp [h]
      · exact ih l h
    · obtain ⟨l0, ls0, h0⟩ : ∃ l0 ls0, splitNl rest = l0 :: ls0 := by
        cases hsp : splitNl rest with
        | nil => exact absurd hsp (splitNl_ne_nil rest)
        | cons x xs => exact ⟨x, xs, rfl⟩
      simp only [splitNl, if_neg hc, h0, List.mem_cons] at hl
      rcases hl with h | h
      · subst h
        intro hmem
        rcases List.mem_cons.mp hmem with h | h
        · exact hc h.symm
        · exact ih l0 (h0 ▸ List.mem_cons_self l0 ls0) h
      · exact ih l (h0 ▸ List.mem_cons_of_mem _ h)

/-- `splitNl` inverts head-plus-newline-joined-tail assembly. -/
theorem splitNl_append_nlJoin :
    ∀ (ls : List Str) (l : Str), '\n' ∉ l → (∀ x ∈ ls, '\n' ∉ x) →
      splitNl (l ++ nlJoin ls) = l :: ls := by
  intro ls
  induction ls with
  | nil =>
    intro l hl _
    induction l with
    | nil => rfl
    | cons c l ihl =>
      have hc : c ≠ '\n' := fun h => hl (h ▸ List.mem_cons_self c l)
      have hl' : '\n' ∉ l := fun h => hl (List.mem_cons_of_mem _ h)
      simp only [List.cons_append, splitNl, if_neg hc, List.append_eq, ihl hl']
  | cons x xs ih =>
    intro l hl hxs
    induction l with
    | nil =>
      show splitNl ('\n' :: (x ++ nlJoin xs)) = [] :: x :: xs
      have hx := ih x (hxs x (List.mem_cons_self x xs))
        (fun y hy => hxs y (List.mem_cons_of_mem _ hy))
      simp [splitNl, hx]
    | cons c l ihl =>
      have hc : c ≠ '\n' := fun h => hl (h ▸ List.mem_cons_self c l)
      have hl' : '\n' ∉ l := fun h => hl (List.mem_cons_of_mem _ h)
      simp only [List.cons_append, splitNl, if_neg hc, List.append_eq, ihl hl']

/-- U+200B, the `zeroWidthSpace` constant of patch.go. -/
def zwsp : Char := Char.ofNat 0x200b

/-- The body-escaping step of `Patch.Write` (patch.go lines 276-278):
three successive `strings.Replace` calls insert a zero width space
after each newline that is followed by `diff`, `---`, or `+++`. -/
def escapeBody (body : Str) : Str :=
  replaceAll
    (replaceAll
      (replaceAll body ('\n' :: s2l "diff") ('\n' :: zwsp :: s2l "diff"))
      ('\n' :: s2l "---") ('\n' :: zwsp :: s2l "---"))
    ('\n' :: s2l "+++") ('\n' :: zwsp :: s2l "+++")

/-- The combined effect of the three escapes on a single line that is
preceded by a newline. -/
def escLine (l : Str) : Str :=
  if (s2l "diff").isPrefixOf l || (s2l "---").isPrefixOf l || (s2l "+++").isPrefixOf l
  then zwsp :: l else l

theorem isPrefixOf_zwsp_dash (l : Str) :
    (s2l "---").isPrefixOf (zwsp :: l) = false := by
  show (('-' == zwsp) && _) = false
  rw [show ('-' == zwsp) = false from by decide]
  simp

theorem isPrefixOf_zwsp_plus (l : Str) :
    (s2l "+++").isPrefixOf (zwsp :: l) = false := by
  show (('+' == zwsp) && _) = false
  rw [show ('+' == zwsp) = false from by decide]
  simp

theorem escWith_comp (l : Str) :
    escWith (s2l "+++") [zwsp]
      (escWith (s2l "---") [zwsp] (escWith (s2l "diff") [zwsp] l)) = escLine l := by
  unfold escWith escLine
  cases h1 : (s2l "diff").isPrefixOf l with
  | true =>
    simp only [if_pos h1]
    show (if ((s2l "---").isPrefixOf (zwsp :: l) = true) then _ else _) = _
    rw [isPrefixOf_zwsp_dash]
    simp only [Bool.false_eq_true, if_false]
    show (if ((s2l "+++").isPrefixOf (zwsp :: l) = true) then _ else _) = _
    rw [isPrefixOf_zwsp_plus]
    simp [h1]
  | false =>
    simp only [h1, Bool.false_eq_true, if_false]
    cases h2 : (s2l "---").isPrefixOf l with
    | true =>
      simp only [if_pos h2]
      show (if ((s2l "+++").isPrefixOf (zwsp :: l) = true) then _ else _) = _
      rw [isPrefixOf_zwsp_plus]
      simp [h1, h2]
    | false =>
      simp only [h2, Bool.false_eq_true, if_false]
      cases h3 : (s2l "+++").isPrefixOf l with
      | true => simp [h1, h2, h3]
      | false => simp [h1, h2, h3]

theorem not_mem_nl_escWith (w l : Str) (hl : '\n' ∉ l) :
    '\n' ∉ escWith w [zwsp] l := by
  unfold escWith
  split
  · intro hm
    rcases List.mem_cons.mp (by simpa using hm) with h | h
    · exact absurd h.symm (by decide)
    · exact hl h
  · exact hl

/-- The full line-level characterization of the escaping step: the first
segment of the body is left untouched, every later segment beginning
with `diff`, `---` or `+++` receives the zero width space, and all
other segments are unchanged. -/
theorem escapeBody_split (b l : Str) (ls : List Str) (h : splitNl b = l :: ls) :
    escapeBody b = l ++ nlJoin (ls.map escLine) ∧
    splitNl (escapeBody b) = l :: ls.map escLine := by
  have hre : b = l ++ nlJoin ls := splitNl_reassemble b l ls h
  have hl : '\n' ∉ l := not_mem_nl_of_mem_splitNl b l (h ▸ List.mem_cons_self l ls)
  have hls : ∀ x ∈ ls, '\n' ∉ x := fun x hx =>
    not_mem_nl_of_mem_splitNl b x (h ▸ List.mem_cons_of_mem _ hx)
  have hstep : ∀ (w : Str), '\n' ∉ w → ∀ (ms : List Str), (∀ x ∈ ms, '\n' ∉ x) →
      replaceAll (l ++ nlJoin ms) ('\n' :: w) ('\n' :: zwsp :: w) =
        l ++ nlJoin (ms.map (escWith w [zwsp])) := by
    intro w hw ms hms
    rw [replaceAll_append_of_not_mem _ _ _ _ _ hl]
    rw [show ('\n' :: zwsp :: w) = ('\n' :: ([zwsp] ++ w)) from rfl]
    rw [replaceAll_nlJoin w [zwsp] hw ms hms]
  have hw1 : '\n' ∉ s2l "diff" := by decide
  have hw2 : '\n' ∉ s2l "---" := by decide
  have hw3 : '\n' ∉ s2l "+++" := by decide
  have hm1 : ∀ x ∈ ls.map (escWith (s2l "diff") [zwsp]), '\n' ∉ x := by
    intro x hx
    obtain ⟨y, hy, rfl⟩ := List.mem_map.mp hx
    exact not_mem_nl_escWith _ _ (hls y hy)
  have hm2 : ∀ x ∈ (ls.map (escWith (s2l "diff") [zwsp])).map (escWith (s2l "---") [zwsp]),
      '\n' ∉ x := by
    intro x hx
    obtain ⟨y, hy, rfl⟩ := List.mem_map.mp hx
    exact not_mem_nl_escWith _ _ (hm1 y hy)
  have heq : escapeBody b =
      l ++ nlJoin (((ls.map (escWith (s2l "diff") [zwsp])).map
        (escWith (s2l "---") [zwsp])).map (escWith (s2l "+++") [zwsp])) := by
    rw [escapeBody, hre, hstep _ hw1 ls hls, hstep _ hw2 _ hm1, hstep _ hw3 _ hm2]
  have hmaps : ((ls.map (escWith (s2l "diff") [zwsp])).map
      (escWith (s2l "---") [zwsp])).map (escWith (s2l "+++") [zwsp]) = ls.map escLine := by
    simp only [List.map_map]
    apply List.map_congr_left
    intro x _
    exact escWith_comp x
  rw [hmaps] at heq
  refine ⟨heq, ?_⟩
  rw [heq]
  apply splitNl_append_nlJoin _ _ hl
  intro x hx
  obtain ⟨y, hy, rfl⟩ := List.mem_map.mp hx
  unfold escLine
  split
  · intro hm
    rcases List.mem_cons.mp hm with h' | h'
    · exact absurd h'.symm (by decide)
    · exact hls y hy h'
  · exact hls y hy

/-! ### Character classes and small numeric codecs used by the patch codec -/

/-- Whitespace in the sense of `bytes.Fields` (ASCII cases). -/
def isWS (c : Char) : Bool :=
  c = ' ' || c = '\t' || c = '\n' || c = '\r' || c = '\x0b' || c = '\x0c'

/-- Space or tab, the characters a mail header value is trimmed of. -/
def isSpaceTab (c : Char) : Bool := c = ' ' || c = '\t'

def isDigitC (c : Char) : Bool := '0' ≤ c && c ≤ '9'

def isAlphaC (c : Char) : Bool := ('a' ≤ c && c ≤ 'z') || ('A' ≤ c && c ≤ 'Z')

def lowerHexChars : Str := s2l "0123456789abcdef"

def upperHexChars : Str := s2l "ABCDEF"

/-- Hex digit as rendered by `Hex()` (lowercase). -/
def isLowerHexDigit (c : Char) : Bool := lowerHexChars.contains c

def isUpperHexLetter (c : Char) : Bool := upperHexChars.contains c

/-- Hex digit of either case, as accepted by digest parsing and by the
strip-commit rule validator of main.go. -/
def isHexDigitC (c : Char) : Bool := isLowerHexDigit c || isUpperHexLetter c

/-- Lowercase a hex digit (hex decoding accepts both cases and `Hex()`
re-encodes in lowercase). -/
def toLowerHex (c : Char) : Char :=
  if c = 'A' then 'a' else if c = 'B' then 'b' else if c = 'C' then 'c'
  else if c = 'D' then 'd' else if c = 'E' then 'e' else if c = 'F' then 'f' else c

theorem mem_of_isLowerHexDigit (c : Char) (h : isLowerHexDigit c) :
    c ∈ lowerHexChars := by
  simpa [isLowerHexDigit] using h

theorem mem_of_isUpperHexLetter (c : Char) (h : isUpperHexLetter c) :
    c ∈ upperHexChars := by
  simpa [isUpperHexLetter] using h

theorem not_lower_and_upper_hex (c : Char) :
    isLowerHexDigit c → isUpperHexLetter c → False := by
  intro h1 h2
  have m1 := mem_of_isLowerHexDigit c h1
  have m2 := mem_of_isUpperHexLetter c h2
  simp only [lowerHexChars, s2l, String.data, List.mem_cons, List.not_mem_nil,
    or_false] at m1
  simp only [upperHexChars, s2l, String.data, List.mem_cons, List.not_mem_nil,
    or_false] at m2
  rcases m1 with rfl | rfl | rfl | rfl | rfl | rfl | rfl | rfl | rfl | rfl | rfl |
    rfl | rfl | rfl | rfl | rfl <;> revert m2 <;> decide

theorem toLowerHex_of_lower (c : Char) (h : isLowerHexDigit c) :
    toLowerHex c = c := by
  have m := mem_of_isLowerHexDigit c h
  simp only [lowerHexChars, s2l, String.data, List.mem_cons, List.not_mem_nil,
    or_false] at m
  rcases m with rfl | rfl | rfl | rfl | rfl | rfl | rfl | rfl | rfl | rfl | rfl |
    rfl | rfl | rfl | rfl | rfl <;> decide

theorem toLowerHex_lower (c : Char) (h : isHexDigitC c) :
    isLowerHexDigit (toLowerHex c) := by
  rw [isHexDigitC, Bool.or_eq_true] at h
  rcases h with h' | h'
  · rw [toLowerHex_of_lower c h']; exact h'
  · have m := mem_of_isUpperHexLetter c h'
    simp only [upperHexChars, s2l, String.data, List.mem_cons, List.not_mem_nil,
      or_false] at m
    rcases m with rfl | rfl | rfl | rfl | rfl | rfl <;> decide

/-- Digit value of an ASCII digit character. -/
def digitVal (c : Char) : Nat :=
  if c = '0' then 0 else if c = '1' then 1 else if c = '2' then 2
  else if c = '3' then 3 else if c = '4' then 4 else if c = '5' then 5
  else if c = '6' then 6 else if c = '7' then 7 else if c = '8' then 8 else 9

/-- Digit character for a value below ten. -/
def digitChar (n : Nat) : Char :=
  if n = 0 then '0' else if n = 1 then '1' else if n = 2 then '2'
  else if n = 3 then '3' else if n = 4 then '4' else if n = 5 then '5'
  else if n = 6 then '6' else if n = 7 then '7' else if n = 8 then '8' else '9'

theorem digitVal_digitChar (n : Nat) (h : n < 10) : digitVal (digitChar n) = n := by
  interval_cases n <;> rfl

theorem isDigitC_digitChar (n : Nat) (h : n < 10) : isDigitC (digitChar n) = true := by
  interval_cases n <;> rfl

/-- Two-digit zero-padded rendering, as Go's `15`/`04`/`05`/zone layout
components produce. -/
def pad2 (n : Nat) : Str :=
  if n < 10 then ['0', digitChar n] else [digitChar (n / 10), digitChar (n % 10)]

/-- Go's unpadded day-of-month layout component `2` (for day values up
to 31 this is `%d`). -/
def fmtDay (n : Nat) : Str :=
  if n < 10 then [digitChar n] else [digitChar (n / 10), digitChar (n % 10)]

/-- Read exactly two digits. -/
def parse2dig : Str → Except Str (Nat × Str)
  | c1 :: c2 :: rest =>
    if isDigitC c1 && isDigitC c2 then .ok (10 * digitVal c1 + digitVal c2, rest)
    else .error (s2l "bad digits")
  | _ => .error (s2l "bad digits")

/-- Read one digit, or two when a second digit follows (Go's variable
width numeric layout element). -/
def parseDay : Str → Except Str (Nat × Str)
  | [] => .error (s2l "bad day")
  | c1 :: rest =>
    if isDigitC c1 then
      match rest with
      | c2 :: rest2 =>
        if isDigitC c2 then .ok (10 * digitVal c1 + digitVal c2, rest2)
        else .ok (digitVal c1, rest)
      | [] => .ok (digitVal c1, [])
    else .error (s2l "bad day")

theorem parse2dig_pad2 (n : Nat) (h : n < 100) (rest : Str) :
    parse2dig (pad2 n ++ rest) = .ok (n, rest) := by
  unfold pad2
  by_cases h10 : n < 10
  · rw [if_pos h10]
    show parse2dig ('0' :: digitChar n :: rest) = _
    simp only [parse2dig, isDigitC_digitChar n h10, digitVal_digitChar n h10,
      show isDigitC '0' = true from by decide, show digitVal '0' = 0 from rfl]
    norm_num
  · rw [if_neg h10]
    show parse2dig (digitChar (n / 10) :: digitChar (n % 10) :: rest) = _
    have hd : n / 10 < 10 := by omega
    have hm : n % 10 < 10 := by omega
    simp only [parse2dig, isDigitC_digitChar _ hd, isDigitC_digitChar _ hm,
      digitVal_digitChar _ hd, digitVal_digitChar _ hm]
    norm_num
    omega

theorem parseDay_fmtDay (n : Nat) (h : n < 100) (rest : Str) (c : Char)
    (hc : isDigitC c = false) :
    parseDay (fmtDay n ++ c :: rest) = .ok (n, c :: rest) := by
  unfold fmtDay
  by_cases h10 : n < 10
  · rw [if_pos h10]
    show parseDay (digitChar n :: c :: rest) = _
    simp only [parseDay, isDigitC_digitChar n h10, digitVal_digitChar n h10, hc]
    simp
  · rw [if_neg h10]
    show parseDay (digitChar (n / 10) :: digitChar (n % 10) :: c :: rest) = _
    have hd : n / 10 < 10 := by omega
    have hm : n % 10 < 10 := by omega
    simp only [parseDay, isDigitC_digitChar _ hd, isDigitC_digitChar _ hm,
      digitVal_digitChar _ hd, digitVal_digitChar _ hm]
    norm_num
    omega

/-- Four-digit year rendering. -/
def pad4 (n : Nat) : Str := pad2 (n / 100) ++ pad2 (n % 100)

def parse4dig (s : Str) : Except Str (Nat × Str) :=
  match parse2dig s with
  | .error e => .error e
  | .ok (hi, r) =>
    match parse2dig r with
    | .error e => .error e
    | .ok (lo, r2) => .ok (100 * hi + lo, r2)

theorem parse4dig_pad4 (n : Nat) (h : n < 10000) (rest : Str) :
    parse4dig (pad4 n ++ rest) = .ok (n, rest) := by
  have h1 : pad4 n ++ rest = pad2 (n / 100) ++ (pad2 (n % 100) ++ rest) := by
    simp [pad4, List.append_assoc]
  rw [h1]
  simp only [parse4dig, parse2dig_pad2 (n / 100) (by omega),
    parse2dig_pad2 (n % 100) (by omega)]
  have : 100 * (n / 100) + n % 100 = n := by omega
  rw [this]

/-! ### The commit-date codec (repo.go `gitTimeLayout`, net/mail `Header.Date`) -/

def monthNames : List Str :=
  [s2l "Jan", s2l "Feb", s2l "Mar", s2l "Apr", s2l "May", s2l "Jun",
   s2l "Jul", s2l "Aug", s2l "Sep", s2l "Oct", s2l "Nov", s2l "Dec"]

/-- The month-name layout element (`Jan`) for months 1-12. -/
def fmtMonth (m : Nat) : Str := monthNames.getD (m - 1) (s2l "Jan")

/-- Parse a three-letter month name. -/
def parseMonth : Str → Except Str (Nat × Str)
  | a :: b :: c :: rest =>
    if ([a, b, c] : Str) = s2l "Jan" then .ok (1, rest)
    else if ([a, b, c] : Str) = s2l "Feb" then .ok (2, rest)
    else if ([a, b, c] : Str) = s2l "Mar" then .ok (3, rest)
    else if ([a, b, c] : Str) = s2l "Apr" then .ok (4, rest)
    else if ([a, b, c] : Str) = s2l "May" then .ok (5, rest)
    else if ([a, b, c] : Str) = s2l "Jun" then .ok (6, rest)
    else if ([a, b, c] : Str) = s2l "Jul" then .ok (7, rest)
    else if ([a, b, c] : Str) = s2l "Aug" then .ok (8, rest)
    else if ([a, b, c] : Str) = s2l "Sep" then .ok (9, rest)
    else if ([a, b, c] : Str) = s2l "Oct" then .ok (10, rest)
    else if ([a, b, c] : Str) = s2l "Nov" then .ok (11, rest)
    else if ([a, b, c] : Str) = s2l "Dec" then .ok (12, rest)
    else .error (s2l "bad month")
  | _ => .error (s2l "bad month")

theorem parseMonth_fmtMonth (m : Nat) (h1 : 1 ≤ m) (h2 : m ≤ 12) (rest : Str) :
    parseMonth (fmtMonth m ++ rest) = .ok (m, rest) := by
  interval_cases m <;> simp [fmtMonth, monthNames, parseMonth, s2l]

def dayNames : List Str :=
  [s2l "Sat", s2l "Sun", s2l "Mon", s2l "Tue", s2l "Wed", s2l "Thu", s2l "Fri"]

/-- Zeller's-congruence weekday index; Go's time.Format derives the
weekday name from the date itself (it does not store one). -/
def wdayIdx (day month year : Nat) : Nat :=
  (day + 13 * ((if month < 3 then month + 12 else month) + 1) / 5
    + (if month < 3 then year - 1 else year) % 100
    + (if month < 3 then year - 1 else year) % 100 / 4
    + (if month < 3 then year - 1 else year) / 100 / 4
    + 5 * ((if month < 3 then year - 1 else year) / 100)) % 7

/-- The weekday-name layout element (`Mon`). -/
def weekdayName (day month year : Nat) : Str :=
  dayNames.getD (wdayIdx day month year) (s2l "Mon")

theorem weekdayName_mem (d m y : Nat) : weekdayName d m y ∈ dayNames := by
  unfold weekdayName
  have h7 : wdayIdx d m y < 7 := by
    unfold wdayIdx
    exact Nat.mod_lt _ (by norm_num)
  set i := wdayIdx d m y with hi
  clear_value i
  interval_cases i <;> simp [dayNames]

/-- The second-precision components of a parsed commit date, together
with its fixed numeric zone (the data time.Time retains of an
RFC-2822 date at one-second precision). -/
structure GitTime where
  day : Nat
  month : Nat
  year : Nat
  hh : Nat
  mm : Nat
  ss : Nat
  zNeg : Bool
  zh : Nat
  zm : Nat
deriving DecidableEq

/-- The component ranges Go's date parsing accepts. -/
def GitTime.wf (t : GitTime) : Prop :=
  1 ≤ t.day ∧ t.day ≤ 31 ∧ 1 ≤ t.month ∧ t.month ≤ 12 ∧ t.year < 10000 ∧
    t.hh < 24 ∧ t.mm < 60 ∧ t.ss < 60 ∧ t.zh < 100 ∧ t.zm < 100

instance (t : GitTime) : Decidable t.wf := by
  unfold GitTime.wf
  infer_instance

/-- Rendering of the Go layout `"Mon, 2 Jan 2006 15:04:05 -0700"`
(`gitTimeLayout` of repo.go), from the parsed components. -/
def fmtGitTime (t : GitTime) : Str :=
  weekdayName t.day t.month t.year ++ s2l ", " ++
    (fmtDay t.day ++ ' ' :: fmtMonth t.month ++ ' ' :: pad4 t.year ++ ' ' ::
      pad2 t.hh ++ ':' :: pad2 t.mm ++ ':' :: pad2 t.ss ++ ' ' ::
      (if t.zNeg then '-' else '+') :: (pad2 t.zh ++ pad2 t.zm))

def expectChar (c : Char) : Str → Except Str Str
  | x :: rest => if x = c then .ok rest else .error (s2l "unexpected char")
  | [] => .error (s2l "unexpected end")

@[simp] theorem expectChar_cons_eq (c : Char) (r : Str) :
    expectChar c (c :: r) = .ok r := by
  simp [expectChar]

/-- Skip the optional `Www, ` weekday prefix of an RFC-2822 date. -/
def skipWd (s : Str) : Str :=
  match s with
  | c1 :: c2 :: c3 :: ',' :: ' ' :: r =>
    if isAlphaC c1 && isAlphaC c2 && isAlphaC c3 then r else s
  | _ => s

theorem skipWd_cons (c1 c2 c3 : Char) (r : Str)
    (h1 : isAlphaC c1) (h2 : isAlphaC c2) (h3 : isAlphaC c3) :
    skipWd (c1 :: c2 :: c3 :: ',' :: ' ' :: r) = r := by
  simp [skipWd, h1, h2, h3]

/-- Body of commit-date parsing, after the optional weekday: day,
month name, four-digit year, HH:MM:SS and a signed four-digit zone,
with the range checks Go's time parsing performs. -/
def parseGitDateBody (s : Str) : Except Str GitTime := do
  let (day, r1) ← parseDay s
  let r2 ← expectChar ' ' r1
  let (month, r3) ← parseMonth r2
  let r4 ← expectChar ' ' r3
  let (year, r5) ← parse4dig r4
  let r6 ← expectChar ' ' r5
  let (hh, r7) ← parse2dig r6
  let r8 ← expectChar ':' r7
  let (mm, r9) ← parse2dig r8
  let r10 ← expectChar ':' r9
  let (ss, r11) ← parse2dig r10
  let r12 ← expectChar ' ' r11
  let zp ← (match r12 with
    | '-' :: r => Except.ok (true, r)
    | '+' :: r => Except.ok (false, r)
    | _ => Except.error (s2l "bad zone"))
  let (zh, r14) ← parse2dig zp.2
  let (zm, r15) ← parse2dig r14
  if r15 = [] then
    let t : GitTime := ⟨day, month, year, hh, mm, ss, zp.1, zh, zm⟩
    if t.wf then pure t else Except.error (s2l "date out of range")
  else Except.error (s2l "trailing data in date")

/-- Model of commit-date parsing (net/mail `Header.Date`), restricted
to the RFC-2822 family that the git layout produces. -/
def parseGitDate (s : Str) : Except Str GitTime := parseGitDateBody (skipWd s)

theorem parseGitDateBody_fmt (t : GitTime) (hwf : t.wf) :
    parseGitDateBody
      (fmtDay t.day ++ ' ' :: fmtMonth t.month ++ ' ' :: pad4 t.year ++ ' ' ::
        pad2 t.hh ++ ':' :: pad2 t.mm ++ ':' :: pad2 t.ss ++ ' ' ::
        (if t.zNeg then '-' else '+') :: (pad2 t.zh ++ pad2 t.zm)) = .ok t := by
  obtain ⟨h1, h2, h3, h4, h5, h6, h7, h8, h9, h10⟩ := hwf
  have hzm : pad2 t.zm = pad2 t.zm ++ [] := by simp
  rw [parseGitDateBody]
  simp only [List.cons_append, List.append_assoc]
  rw [parseDay_fmtDay t.day (by omega) _ ' ' (by decide)]
  cases hz : t.zNeg <;>
    simp only [bind, Except.bind, expectChar_cons_eq,
      parseMonth_fmtMonth t.month h3 h4,
      parse4dig_pad4 t.year (by omega),
      parse2dig_pad2 t.hh (by omega), parse2dig_pad2 t.mm (by omega),
      parse2dig_pad2 t.ss (by omega), parse2dig_pad2 t.zh (by omega),
      if_true, if_false, Bool.false_eq_true] <;>
    rw [hzm, parse2dig_pad2 t.zm (by omega)] <;>
    simp only [if_pos rfl] <;>
    rw [if_pos (show GitTime.wf _ from by
      constructor <;> simp_all [GitTime.wf] <;> omega)] <;>
    simp only [pure, Except.pure, Except.ok.injEq] <;>
    (cases t; simp_all)

theorem parseGitDate_fmtGitTime (t : GitTime) (hwf : t.wf) :
    parseGitDate (fmtGitTime t) = .ok t := by
  have hwd := weekdayName_mem t.day t.month t.year
  simp only [dayNames, List.mem_cons, List.not_mem_nil, or_false] at hwd
  unfold parseGitDate fmtGitTime
  rcases hwd with hw | hw | hw | hw | hw | hw | hw <;> rw [hw] <;>
    [skip; skip; skip; skip; skip; skip; skip] <;>
    first
    | (rw [show ∀ r : Str, s2l "Sat" ++ s2l ", " ++ r = 'S' :: 'a' :: 't' :: ',' :: ' ' :: r
          from fun r => rfl,
        skipWd_cons _ _ _ _ (by decide) (by decide) (by decide)]
       exact parseGitDateBody_fmt t hwf)
    | (rw [show ∀ r : Str, s2l "Sun" ++ s2l ", " ++ r = 'S' :: 'u' :: 'n' :: ',' :: ' ' :: r
          from fun r => rfl,
        skipWd_cons _ _ _ _ (by decide) (by decide) (by decide)]
       exact parseGitDateBody_fmt t hwf)
    | (rw [show ∀ r : Str, s2l "Mon" ++ s2l ", " ++ r = 'M' :: 'o' :: 'n' :: ',' :: ' ' :: r
          from fun r => rfl,
        skipWd_cons _ _ _ _ (by decide) (by decide) (by decide)]
       exact parseGitDateBody_fmt t hwf)
    | (rw [show ∀ r : Str, s2l "Tue" ++ s2l ", " ++ r = 'T' :: 'u' :: 'e' :: ',' :: ' ' :: r
          from fun r => rfl,
        skipWd_cons _ _ _ _ (by decide) (by decide) (by decide)]
       exact parseGitDateBody_fmt t hwf)
    | (rw [show ∀ r : Str, s2l "Wed" ++ s2l ", " ++ r = 'W' :: 'e' :: 'd' :: ',' :: ' ' :: r
          from fun r => rfl,
        skipWd_cons _ _ _ _ (by decide) (by decide) (by decide)]
       exact parseGitDateBody_fmt t hwf)
    | (rw [show ∀ r : Str, s2l "Thu" ++ s2l ", " ++ r = 'T' :: 'h' :: 'u' :: ',' :: ' ' :: r
          from fun r => rfl,
        skipWd_cons _ _ _ _ (by decide) (by decide) (by decide)]
       exact parseGitDateBody_fmt t hwf)
    | (rw [show ∀ r : Str, s2l "Fri" ++ s2l ", " ++ r = 'F' :: 'r' :: 'i' :: ',' :: ' ' :: r
          from fun r => rfl,
        skipWd_cons _ _ _ _ (by decide) (by decide) (by decide)]
       exact parseGitDateBody_fmt t hwf)

/-! ### List utility lemmas for the codec proofs -/

theorem takeWhile_append_stop {α : Type} (p : α → Bool) (l : List α) (c : α)
    (s : List α) (hl : ∀ x ∈ l, p x = true) (hc : p c = false) :
    (l ++ c :: s).takeWhile p = l := by
  induction l with
  | nil => simp [List.takeWhile_cons, hc]
  | cons a l ih =>
    have ha := hl a (List.mem_cons_self a l)
    simp only [List.cons_append, List.takeWhile_cons, ha, if_true]
    rw [ih (fun x hx => hl x (List.mem_cons_of_mem _ hx))]

theorem dropWhile_append_stop {α : Type} (p : α → Bool) (l : List α) (c : α)
    (s : List α) (hl : ∀ x ∈ l, p x = true) (hc : p c = false) :
    (l ++ c :: s).dropWhile p = c :: s := by
  induction l with
  | nil => simp [List.dropWhile_cons, hc]
  | cons a l ih =>
    have ha := hl a (List.mem_cons_self a l)
    simp only [List.cons_append, List.dropWhile_cons, ha, if_true]
    exact ih (fun x hx => hl x (List.mem_cons_of_mem _ hx))

theorem mem_takeWhile_pred {α : Type} (p : α → Bool) (l : List α) (x : α)
    (h : x ∈ l.takeWhile p) : p x = true := by
  induction l with
  | nil => simp [List.takeWhile] at h
  | cons a l ih =>
    rw [List.takeWhile_cons] at h
    by_cases ha : p a = true
    · rw [if_pos ha] at h
      rcases List.mem_cons.mp h with rfl | h
      · exact ha
      · exact ih h
    · rw [if_neg ha] at h
      simp at h

theorem mem_of_mem_takeWhile {α : Type} (p : α → Bool) (l : List α) (x : α)
    (h : x ∈ l.takeWhile p) : x ∈ l := by
  induction l with
  | nil => simp [List.takeWhile] at h
  | cons a l ih =>
    rw [List.takeWhile_cons] at h
    by_cases ha : p a = true
    · rw [if_pos ha] at h
      rcases List.mem_cons.mp h with rfl | h
      · exact List.mem_cons_self x l
      · exact List.mem_cons_of_mem _ (ih h)
    · rw [if_neg ha] at h
      simp at h

theorem mem_of_mem_dropWhile {α : Type} (p : α → Bool) (l : List α) (x : α)
    (h : x ∈ l.dropWhile p) : x ∈ l := by
  induction l with
  | nil => simp [List.dropWhile] at h
  | cons a l ih =>
    rw [List.dropWhile_cons] at h
    by_cases ha : p a = true
    · rw [if_pos ha] at h
      exact List.mem_cons_of_mem _ (ih h)
    · rw [if_neg ha] at h
      exact h

theorem dropWhile_idem {α : Type} (p : α → Bool) (l : List α) :
    (l.dropWhile p).dropWhile p = l.dropWhile p := by
  induction l with
  | nil => simp
  | cons a l ih =>
    rw [List.dropWhile_cons]
    by_cases ha : p a = true
    · rw [if_pos ha]; exact ih
    · rw [if_neg ha, List.dropWhile_cons, if_neg ha]

theorem dropWhile_eq_self_of_head {α : Type} (p : α → Bool) (c : α) (r : List α)
    (hc : p c = false) : (c :: r).dropWhile p = c :: r := by
  rw [List.dropWhile_cons, if_neg (by simp [hc])]

theorem getD_mem_or_eq {α : Type} :
    ∀ (l : List α) (i : Nat) (d : α), l.getD i d ∈ l ∨ l.getD i d = d := by
  intro l
  induction l with
  | nil => intro i d; right; simp
  | cons a l ih =>
    intro i d
    cases i with
    | zero => left; simp
    | succ i =>
      rcases ih i d with h | h
      · left; rw [List.getD_cons_succ]; exact List.mem_cons_of_mem _ h
      · right; rw [List.getD_cons_succ]; exact h

/-- Splitting distributes over a leading newline-free line. -/
theorem splitNl_line (l : Str) (hl : '\n' ∉ l) (r : Str) :
    splitNl (l ++ '\n' :: r) = l :: splitNl r := by
  induction l with
  | nil => simp [splitNl]
  | cons c l ih =>
    have hc : c ≠ '\n' := fun h => hl (h ▸ List.mem_cons_self c l)
    have hl' : '\n' ∉ l := fun h => hl (List.mem_cons_of_mem _ h)
    simp only [List.cons_append, splitNl, if_neg hc, List.append_eq, ih hl']


/-- Any successfully parsed date is within the accepted ranges. -/
theorem parseGitDateBody_wf (s : Str) (t : GitTime)
    (h : parseGitDateBody s = .ok t) : t.wf := by
  rw [parseGitDateBody] at h
  simp only [bind, Except.bind, pure, Except.pure] at h
  repeat' split at h
  all_goals cases h
  all_goals assumption

theorem parseGitDate_wf (s : Str) (t : GitTime)
    (h : parseGitDate s = .ok t) : t.wf :=
  parseGitDateBody_wf _ t h

theorem digitChar_ne_nl (n : Nat) : digitChar n ≠ '\n' := by
  unfold digitChar
  split_ifs <;> decide

theorem not_nl_pad2 (n : Nat) : '\n' ∉ pad2 n := by
  unfold pad2
  split_ifs with h
  · intro hm
    rcases List.mem_cons.mp hm with hm | hm
    · exact absurd hm (by decide)
    · rcases List.mem_cons.mp hm with hm | hm
      · exact digitChar_ne_nl n hm.symm
      · simp at hm
  · intro hm
    rcases List.mem_cons.mp hm with hm | hm
    · exact digitChar_ne_nl (n / 10) hm.symm
    · rcases List.mem_cons.mp hm with hm | hm
      · exact digitChar_ne_nl (n % 10) hm.symm
      · simp at hm

theorem not_nl_fmtDay (n : Nat) : '\n' ∉ fmtDay n := by
  unfold fmtDay
  split_ifs with h
  · intro hm
    rcases List.mem_cons.mp hm with hm | hm
    · exact digitChar_ne_nl n hm.symm
    · simp at hm
  · intro hm
    rcases List.mem_cons.mp hm with hm | hm
    · exact digitChar_ne_nl (n / 10) hm.symm
    · rcases List.mem_cons.mp hm with hm | hm
      · exact digitChar_ne_nl (n % 10) hm.symm
      · simp at hm

theorem not_nl_pad4 (n : Nat) : '\n' ∉ pad4 n := by
  rw [pad4]
  intro hm
  rcases List.mem_append.mp hm with hm | hm
  · exact not_nl_pad2 _ hm
  · exact not_nl_pad2 _ hm

theorem fmtMonth_mem (m : Nat) : fmtMonth m ∈ monthNames := by
  rw [fmtMonth]
  rcases getD_mem_or_eq monthNames (m - 1) (s2l "Jan") with h | h
  · exact h
  · rw [h]; exact List.mem_cons_self _ _

theorem not_nl_fmtMonth (m : Nat) : '\n' ∉ fmtMonth m := by
  have hmem := fmtMonth_mem m
  have : ∀ x ∈ monthNames, '\n' ∉ x := by decide
  exact this _ hmem

theorem not_nl_weekdayName (d m y : Nat) : '\n' ∉ weekdayName d m y := by
  have hmem := weekdayName_mem d m y
  have : ∀ x ∈ dayNames, '\n' ∉ x := by decide
  exact this _ hmem

theorem not_nl_fmtGitTime (t : GitTime) : '\n' ∉ fmtGitTime t := by
  rw [fmtGitTime]
  intro hm
  rcases List.mem_append.mp hm with hm | hm
  · rcases List.mem_append.mp hm with hm | hm
    · exact not_nl_weekdayName _ _ _ hm
    · revert hm; decide
  · rcases List.mem_append.mp hm with hm | hm
    case inr =>
      rcases List.mem_cons.mp hm with hm | hm
      · exact absurd hm (by decide)
      rcases List.mem_cons.mp hm with hm | hm
      · revert hm; split <;> decide
      rcases List.mem_append.mp hm with hm | hm
      · exact not_nl_pad2 _ hm
      · exact not_nl_pad2 _ hm
    rcases List.mem_append.mp hm with hm | hm
    case inr =>
      rcases List.mem_cons.mp hm with hm | hm
      · exact absurd hm (by decide)
      · exact not_nl_pad2 _ hm
    rcases List.mem_append.mp hm with hm | hm
    case inr =>
      rcases List.mem_cons.mp hm with hm | hm
      · exact absurd hm (by decide)
      · exact not_nl_pad2 _ hm
    rcases List.mem_append.mp hm with hm | hm
    case inr =>
      rcases List.mem_cons.mp hm with hm | hm
      · exact absurd hm (by decide)
      · exact not_nl_pad2 _ hm
    rcases List.mem_append.mp hm with hm | hm
    case inr =>
      rcases List.mem_cons.mp hm with hm | hm
      · exact absurd hm (by decide)
      · exact not_nl_pad4 _ hm
    rcases List.mem_append.mp hm with hm | hm
    case inr =>
      rcases List.mem_cons.mp hm with hm | hm
      · exact absurd hm (by decide)
      · exact not_nl_fmtMonth _ hm
    exact not_nl_fmtDay _ hm

theorem fmtGitTime_trimmed (t : GitTime) :
    (fmtGitTime t).dropWhile isSpaceTab = fmtGitTime t := by
  have hwd := weekdayName_mem t.day t.month t.year
  simp only [dayNames, List.mem_cons, List.not_mem_nil, or_false] at hwd
  rw [fmtGitTime]
  rcases hwd with hw | hw | hw | hw | hw | hw | hw <;> rw [hw] <;>
    exact dropWhile_eq_self_of_head _ _ _ (by decide)

theorem lowerHex_char_not_ws (c : Char) (h : isLowerHexDigit c) :
    isWS c = false := by
  have m := mem_of_isLowerHexDigit c h
  simp only [lowerHexChars, s2l, String.data, List.mem_cons, List.not_mem_nil,
    or_false] at m
  rcases m with rfl | rfl | rfl | rfl | rfl | rfl | rfl | rfl | rfl | rfl | rfl |
    rfl | rfl | rfl | rfl | rfl <;> decide

theorem lowerHex_no_nl (s : Str) (h : s.all isLowerHexDigit) : '\n' ∉ s := by
  intro hm
  rw [List.all_eq_true] at h
  have := h '\n' hm
  revert this
  decide

theorem lowerHex_no_ws (s : Str) (h : s.all isLowerHexDigit) :
    ∀ c ∈ s, isWS c = false := by
  intro c hc
  rw [List.all_eq_true] at h
  exact lowerHex_char_not_ws c (h c hc)

/-! ### The mail-address model (net/mail, as used by parsePatchHeader) -/

/-- A parsed mail address: display name and address spec. -/
structure Address where
  name : Str
  addr : Str
deriving DecidableEq

/-- Quoted-string escaping of a display name (backslash before `"`
and before a backslash). -/
def escQuoted : Str → Str
  | [] => []
  | c :: rest =>
    if c = '"' || c = '\\' then '\\' :: c :: escQuoted rest else c :: escQuoted rest

/-- Model of net/mail `Address.String()`: a quoted display name
followed by the angle-bracketed address — the form git format-patch
authors take throughout the repository's test data — or the bare
angle form when the display name is empty. -/
def renderAddr (a : Address) : Str :=
  if a.name = [] then '<' :: (a.addr ++ ['>'])
  else '"' :: (escQuoted a.name ++ '"' :: ' ' :: '<' :: (a.addr ++ ['>']))

/-- Parse the remainder of a quoted string (after the opening quote):
a backslash escapes the next character, an unescaped quote ends it. -/
def parseQuoted : Str → Except Str (Str × Str)
  | [] => .error (s2l "unterminated quoted string")
  | c :: rest =>
    if c = '"' then .ok ([], rest)
    else if c = '\\' then
      match rest with
      | [] => .error (s2l "dangling escape")
      | c2 :: rest2 =>
        match parseQuoted rest2 with
        | .error e => .error e
        | .ok (n, r) => .ok (c2 :: n, r)
    else
      match parseQuoted rest with
      | .error e => .error e
      | .ok (n, r) => .ok (c :: n, r)

/-- Parse `<addr-spec>`; returns the address and the tail after `>`. -/
def parseAngle : Str → Except Str (Str × Str)
  | [] => .error (s2l "missing angle address")
  | c :: r =>
    if c = '<' then
      match r.dropWhile (fun x => x != '>') with
      | [] => .error (s2l "unterminated angle address")
      | d :: tail =>
        if d = '>' then .ok (r.takeWhile (fun x => x != '>'), tail)
        else .error (s2l "unterminated angle address")
    else .error (s2l "missing angle address")

/-- Trailing space/tab trim. -/
def trimEndST (s : Str) : Str := (s.reverse.dropWhile isSpaceTab).reverse

/-- Model of net/mail address-list parsing (`Header.AddressList`)
restricted to a single address: a quoted or unquoted display name with
an angle-bracketed address, or a bare address spec.  A comma-separated
multi-address list — which parsePatchHeader rejects by its
exactly-one-From check — fails here during parsing instead. -/
def parseOneAddress (s0 : Str) : Except Str Address :=
  let s := s0.dropWhile isSpaceTab
  match s with
  | '"' :: rest =>
    match parseQuoted rest with
    | .error e => .error e
    | .ok (name, r) =>
      match parseAngle (r.dropWhile isSpaceTab) with
      | .error e => .error e
      | .ok (addr, tail) =>
        if tail.dropWhile isSpaceTab = [] then .ok ⟨name, addr⟩
        else .error (s2l "trailing data after address")
  | _ =>
    if s.contains '<' then
      match parseAngle (s.dropWhile (fun c => c != '<')) with
      | .error e => .error e
      | .ok (addr, tail) =>
        if tail.dropWhile isSpaceTab = [] then
          .ok ⟨trimEndST (s.takeWhile (fun c => c != '<')), addr⟩
        else .error (s2l "trailing data after address")
    else
      if trimEndST s = [] then .error (s2l "empty address")
      else if (trimEndST s).contains '>' then .error (s2l "bad address")
      else .ok ⟨[], trimEndST s⟩

theorem parseQuoted_cons (c : Char) (rest : Str) :
    parseQuoted (c :: rest) =
      (if c = '"' then .ok ([], rest)
       else if c = '\\' then
         match rest with
         | [] => .error (s2l "dangling escape")
         | c2 :: rest2 =>
           match parseQuoted rest2 with
           | .error e => .error e
           | .ok (n, r) => .ok (c2 :: n, r)
       else
         match parseQuoted rest with
         | .error e => .error e
         | .ok (n, r) => .ok (c :: n, r)) := by
  rw [parseQuoted.eq_def]
  rfl

theorem parseQuoted_escQuoted (name rest : Str) :
    parseQuoted (escQuoted name ++ '"' :: rest) = .ok (name, rest) := by
  induction name with
  | nil =>
    show parseQuoted ('"' :: rest) = _
    rw [parseQuoted_cons, if_pos rfl]
  | cons c name ih =>
    by_cases hq : (c = '"' || c = '\\') = true
    · rw [escQuoted, if_pos hq]
      show parseQuoted ('\\' :: c :: (escQuoted name ++ '"' :: rest)) = _
      rw [parseQuoted_cons, if_neg (by decide), if_pos rfl]
      simp only [ih]
    · rw [escQuoted, if_neg hq]
      have h1 : c ≠ '"' := fun h => hq (by simp [h])
      have h2 : c ≠ '\\' := fun h => hq (by simp [h])
      show parseQuoted (c :: (escQuoted name ++ '"' :: rest)) = _
      rw [parseQuoted_cons, if_neg h1, if_neg h2]
      simp only [ih]

theorem parseQuoted_subset_aux (k : Nat) :
    ∀ (s n r : Str), s.length ≤ k → parseQuoted s = .ok (n, r) →
      (∀ c ∈ n, c ∈ s) ∧ (∀ c ∈ r, c ∈ s) := by
  induction k with
  | zero =>
    intro s n r hle h
    cases s with
    | nil => cases h
    | cons c rest => simp at hle
  | succ k ih =>
    intro s n r hle h
    cases s with
    | nil => cases h
    | cons c rest =>
      rw [parseQuoted_cons] at h
      by_cases h1 : c = '"'
      · rw [if_pos h1] at h
        obtain ⟨rfl, rfl⟩ : n = [] ∧ r = rest := by
          constructor <;> (cases h; rfl)
        exact ⟨by simp, fun x hx => List.mem_cons_of_mem _ hx⟩
      · rw [if_neg h1] at h
        by_cases h2 : c = '\\'
        · rw [if_pos h2] at h
          cases rest with
          | nil => cases h
          | cons c2 rest2 =>
            cases hpq : parseQuoted rest2 with
            | error e => simp only [hpq] at h; cases h
            | ok p =>
              obtain ⟨n2, r2⟩ := p
              simp only [hpq] at h
              obtain ⟨rfl, rfl⟩ : n = c2 :: n2 ∧ r = r2 := by
                constructor <;> (cases h; rfl)
              have hlen : rest2.length ≤ k := by
                simp only [List.length_cons] at hle; omega
              obtain ⟨hn, hr⟩ := ih _ _ _ hlen hpq
              constructor
              · intro x hx
                rcases List.mem_cons.mp hx with rfl | hx
                · exact List.mem_cons_of_mem _ (List.mem_cons_self _ _)
                · exact List.mem_cons_of_mem _ (List.mem_cons_of_mem _ (hn x hx))
              · intro x hx
                exact List.mem_cons_of_mem _ (List.mem_cons_of_mem _ (hr x hx))
        · rw [if_neg h2] at h
          cases hpq : parseQuoted rest with
          | error e => simp only [hpq] at h; cases h
          | ok p =>
            obtain ⟨n2, r2⟩ := p
            simp only [hpq] at h
            obtain ⟨rfl, rfl⟩ : n = c :: n2 ∧ r = r2 := by
              constructor <;> (cases h; rfl)
            have hlen : rest.length ≤ k := by
              simp only [List.length_cons] at hle; omega
            obtain ⟨hn, hr⟩ := ih _ _ _ hlen hpq
            constructor
            · intro x hx
              rcases List.mem_cons.mp hx with rfl | hx
              · exact List.mem_cons_self _ _
              · exact List.mem_cons_of_mem _ (hn x hx)
            · intro x hx
              exact List.mem_cons_of_mem _ (hr x hx)

theorem parseQuoted_subset (s n r : Str) (h : parseQuoted s = .ok (n, r)) :
    (∀ c ∈ n, c ∈ s) ∧ (∀ c ∈ r, c ∈ s) :=
  parseQuoted_subset_aux s.length s n r (Nat.le_refl _) h

theorem parseAngle_eval (addr tail2 : Str) (ha : '>' ∉ addr) :
    parseAngle ('<' :: (addr ++ '>' :: tail2)) = .ok (addr, tail2) := by
  have hmem : ∀ x ∈ addr, (x != '>') = true := by
    intro x hx
    simp only [bne_iff_ne, ne_eq]
    intro hEq
    exact ha (hEq ▸ hx)
  rw [parseAngle, if_pos rfl,
    dropWhile_append_stop _ addr '>' tail2 hmem (by simp),
    takeWhile_append_stop _ addr '>' tail2 hmem (by simp)]
  rfl

theorem parseAngle_inv (s addr tail2 : Str) (h : parseAngle s = .ok (addr, tail2)) :
    '>' ∉ addr ∧ (∀ c ∈ addr, c ∈ s) := by
  cases s with
  | nil => cases h
  | cons c r =>
    rw [parseAngle] at h
    by_cases hc : c = '<'
    · rw [if_pos hc] at h
      cases hdw : (r.dropWhile (fun x => x != '>')) with
      | nil => rw [hdw] at h; cases h
      | cons d tl =>
        rw [hdw] at h
        by_cases hd : d = '>'
        · subst hd
          replace h : Except.ok (r.takeWhile (fun x => x != '>'), tl) =
              Except.ok (addr, tail2) := h
          obtain ⟨rfl, rfl⟩ : r.takeWhile (fun x => x != '>') = addr ∧ tl = tail2 := by
            constructor <;> (cases h; rfl)
          constructor
          · intro hmem
            have := mem_takeWhile_pred _ r '>' hmem
            simp at this
          · intro x hx
            exact List.mem_cons_of_mem _ (mem_of_mem_takeWhile _ r x hx)
        · exfalso
          have hde : (match d :: tl with
              | [] => Except.error (s2l "unterminated angle address")
              | d :: tail =>
                if d = '>' then Except.ok (r.takeWhile (fun x => x != '>'), tail)
                else Except.error (s2l "unterminated angle address")) =
              (Except.error (s2l "unterminated angle address") : Except Str (Str × Str)) := by
            show (if d = '>' then _ else _) = _
            rw [if_neg hd]
          rw [hde] at h
          cases h
    · rw [if_neg hc] at h; cases h

theorem trimEndST_subset (s : Str) : ∀ c ∈ trimEndST s, c ∈ s := by
  intro c hc
  rw [trimEndST] at hc
  rw [List.mem_reverse] at hc
  have := mem_of_mem_dropWhile _ _ _ hc
  rwa [List.mem_reverse] at this

theorem escQuoted_mem (s : Str) : ∀ c ∈ escQuoted s, c ∈ s ∨ c = '\\' := by
  induction s with
  | nil => intro c hc; simp [escQuoted] at hc
  | cons a s ih =>
    intro c hc
    rw [escQuoted] at hc
    split_ifs at hc
    · rcases List.mem_cons.mp hc with rfl | hc
      · exact Or.inr rfl
      · rcases List.mem_cons.mp hc with rfl | hc
        · exact Or.inl (List.mem_cons_self _ _)
        · rcases ih c hc with h | h
          · exact Or.inl (List.mem_cons_of_mem _ h)
          · exact Or.inr h
    · rcases List.mem_cons.mp hc with rfl | hc
      · exact Or.inl (List.mem_cons_self _ _)
      · rcases ih c hc with h | h
        · exact Or.inl (List.mem_cons_of_mem _ h)
        · exact Or.inr h

theorem renderAddr_no_nl (a : Address) (h1 : '\n' ∉ a.name) (h2 : '\n' ∉ a.addr) :
    '\n' ∉ renderAddr a := by
  unfold renderAddr
  split_ifs
  · intro hm
    rcases List.mem_cons.mp hm with h | h
    · exact absurd h (by decide)
    · rcases List.mem_append.mp h with h | h
      · exact h2 h
      · simp only [List.mem_singleton] at h
        exact absurd h (by decide)
  · intro hm
    rcases List.mem_cons.mp hm with h | h
    · exact absurd h (by decide)
    · rcases List.mem_append.mp h with h | h
      · rcases escQuoted_mem a.name '\n' h with h | h
        · exact h1 h
        · exact absurd h (by decide)
      · rcases List.mem_cons.mp h with h | h
        · exact absurd h (by decide)
        · rcases List.mem_cons.mp h with h | h
          · exact absurd h (by decide)
          · rcases List.mem_cons.mp h with h | h
            · exact absurd h (by decide)
            · rcases List.mem_append.mp h with h | h
              · exact h2 h
              · simp only [List.mem_singleton] at h
                exact absurd h (by decide)

theorem renderAddr_trimmed (a : Address) :
    (renderAddr a).dropWhile isSpaceTab = renderAddr a := by
  unfold renderAddr
  split_ifs <;> exact dropWhile_eq_self_of_head _ _ _ (by decide)

theorem renderAddr_ne_nil (a : Address) : renderAddr a ≠ [] := by
  unfold renderAddr
  split_ifs <;> simp

/-- Reparsing a rendered address recovers the same address. -/
theorem parseOneAddress_renderAddr (a : Address) (ha : '>' ∉ a.addr) :
    parseOneAddress (renderAddr a) = .ok a := by
  obtain ⟨name, addr⟩ := a
  simp only [Address.addr] at ha
  by_cases hn : name = []
  · subst hn
    rw [renderAddr, if_pos rfl]
    rw [parseOneAddress]
    rw [dropWhile_eq_self_of_head _ _ _ (by decide)]
    show (if ('<' :: (addr ++ ['>']) : Str).contains '<' = true then _ else _) = _
    rw [if_pos (by simp)]
    rw [show (('<' :: (addr ++ ['>']) : Str).dropWhile (fun c => c != '<')) =
        '<' :: (addr ++ ['>']) from dropWhile_eq_self_of_head _ _ _ (by decide)]
    rw [show ((addr ++ ['>'] : Str)) = addr ++ '>' :: [] from rfl,
      parseAngle_eval addr [] ha]
    simp [trimEndST]
  · rw [renderAddr, if_neg hn]
    rw [parseOneAddress]
    rw [dropWhile_eq_self_of_head _ _ _ (by decide)]
    show (match parseQuoted (escQuoted name ++ '"' :: (' ' :: '<' :: (addr ++ ['>']))) with
      | Except.error e => Except.error e
      | Except.ok (name2, r) =>
        match parseAngle (r.dropWhile isSpaceTab) with
        | Except.error e => Except.error e
        | Except.ok (addr2, tail) =>
          if tail.dropWhile isSpaceTab = [] then Except.ok (Address.mk name2 addr2)
          else Except.error (s2l "trailing data after address")) = _
    rw [parseQuoted_escQuoted name (' ' :: '<' :: (addr ++ ['>']))]
    show (match parseAngle ((' ' :: '<' :: (addr ++ ['>']) : Str).dropWhile isSpaceTab) with
      | Except.error e => Except.error e
      | Except.ok (addr2, tail) =>
        if tail.dropWhile isSpaceTab = [] then Except.ok (Address.mk name addr2)
        else Except.error (s2l "trailing data after address")) = _
    rw [show ((' ' :: '<' :: (addr ++ ['>']) : Str).dropWhile isSpaceTab) =
        '<' :: (addr ++ ['>']) from by
      rw [List.dropWhile_cons, if_pos (by decide)]
      exact dropWhile_eq_self_of_head _ _ _ (by decide)]
    rw [show ((addr ++ ['>'] : Str)) = addr ++ '>' :: [] from rfl,
      parseAngle_eval addr [] ha]
    rfl

/-- What parsing an address guarantees about its components. -/
theorem parseOneAddress_inv (v : Str) (a : Address)
    (h : parseOneAddress v = .ok a) :
    '>' ∉ a.addr ∧ (∀ c ∈ a.name, c ∈ v) ∧ (∀ c ∈ a.addr, c ∈ v) := by
  have hsub : ∀ c ∈ v.dropWhile isSpaceTab, c ∈ v := fun c hc =>
    mem_of_mem_dropWhile _ _ _ hc
  rw [parseOneAddress] at h
  split at h
  · rename_i rest heq
    cases hpq : parseQuoted rest with
    | error e => rw [hpq] at h; cases h
    | ok p =>
      obtain ⟨name2, r2⟩ := p
      rw [hpq] at h
      simp only at h
      cases hpa : parseAngle (r2.dropWhile isSpaceTab) with
      | error e => rw [hpa] at h; cases h
      | ok q =>
        obtain ⟨addr2, tail2⟩ := q
        rw [hpa] at h
        simp only at h
        split at h
        · obtain rfl : Address.mk name2 addr2 = a := by cases h; rfl
          obtain ⟨hq1, hq2⟩ := parseQuoted_subset rest name2 r2 hpq
          obtain ⟨hpa1, hpa2⟩ := parseAngle_inv _ addr2 tail2 hpa
          refine ⟨hpa1, ?_, ?_⟩
          · intro c hc
            exact hsub c (heq ▸ List.mem_cons_of_mem _ (hq1 c hc))
          · intro c hc
            have := hpa2 c hc
            have := mem_of_mem_dropWhile _ _ _ this
            have := hq2 c this
            exact hsub c (heq ▸ List.mem_cons_of_mem _ this)
        · cases h
  · split at h
    · cases hpa : parseAngle ((v.dropWhile isSpaceTab).dropWhile (fun c => c != '<')) with
      | error e => rw [hpa] at h; cases h
      | ok q =>
        obtain ⟨addr2, tail2⟩ := q
        rw [hpa] at h
        simp only at h
        split at h
        · obtain rfl : Address.mk
              (trimEndST ((v.dropWhile isSpaceTab).takeWhile (fun c => c != '<'))) addr2 = a := by
            cases h; rfl
          obtain ⟨hpa1, hpa2⟩ := parseAngle_inv _ addr2 tail2 hpa
          refine ⟨hpa1, ?_, ?_⟩
          · intro c hc
            have := trimEndST_subset _ c hc
            have := mem_of_mem_takeWhile _ _ _ this
            exact hsub c this
          · intro c hc
            have := hpa2 c hc
            have := mem_of_mem_dropWhile _ _ _ this
            exact hsub c this
        · cases h
    · split at h
      · cases h
      · split at h
        · cases h
        · obtain rfl : Address.mk [] (trimEndST (v.dropWhile isSpaceTab)) = a := by
            cases h; rfl
          rename_i hgt
          refine ⟨by simpa using hgt, ?_, ?_⟩
          · intro c hc; simp at hc
          · intro c hc
            exact hsub c (trimEndST_subset _ c hc)

/-! ### Mail header-block reading (net/mail ReadMessage, textproto) -/

/-- Split off the first line: the remainder is `none` when the string
contains no newline at all. -/
def lineSplit : Str → Str × Option Str
  | [] => ([], none)
  | c :: rest =>
    if c = '\n' then ([], some rest)
    else
      match lineSplit rest with
      | (l, r) => (c :: l, r)

theorem lineSplit_some_length (b l r : Str) (h : lineSplit b = (l, some r)) :
    r.length < b.length := by
  induction b generalizing l r with
  | nil => simp [lineSplit] at h
  | cons c rest ih =>
    by_cases hc : c = '\n'
    · rw [lineSplit, if_pos hc] at h
      obtain ⟨rfl, rfl⟩ : l = [] ∧ r = rest := by
        constructor <;> simp_all
      simp
    · rw [lineSplit, if_neg hc] at h
      cases hrec : lineSplit rest with
      | mk l0 r0 =>
        rw [hrec] at h
        cases r0 with
        | none => simp_all
        | some r1 =>
          obtain ⟨rfl, rfl⟩ : l = c :: l0 ∧ r = r1 := by
            constructor <;> simp_all
          have := ih _ _ hrec
          simp only [List.length_cons]
          omega

theorem lineSplit_append (l : Str) (hl : '\n' ∉ l) (r : Str) :
    lineSplit (l ++ '\n' :: r) = (l, some r) := by
  induction l with
  | nil => simp [lineSplit]
  | cons c l ih =>
    have hc : c ≠ '\n' := fun h => hl (h ▸ List.mem_cons_self c l)
    have hl' : '\n' ∉ l := fun h => hl (List.mem_cons_of_mem _ h)
    rw [List.cons_append, lineSplit, if_neg hc, ih hl']

theorem length_dropWhile_le {α : Type} (p : α → Bool) (l : List α) :
    (l.dropWhile p).length ≤ l.length := by
  induction l with
  | nil => simp
  | cons c rest ih =>
    rw [List.dropWhile_cons]
    split
    · exact Nat.le_trans ih (by simp)
    · simp

/-- Split a header line at its first colon; the value is trimmed of
leading space/tab (textproto's behavior). -/
def splitColon (l : Str) : Option (Str × Str) :=
  if l.contains ':' then
    some (l.takeWhile (fun c => c != ':'),
      ((l.dropWhile (fun c => c != ':')).tail).dropWhile isSpaceTab)
  else none

/-- Join a list of segments back into the string they were split
from: the head, then a newline before each further segment. -/
def joinNl : List Str → Str
  | [] => []
  | l :: ls => l ++ nlJoin ls

/-- The header block of a line-split message: the lines before the
first blank line, and the segments after it.  A message whose segments
run out before a blank line (no newline-terminated empty line) is an
error, as in textproto. -/
def headerLinesSplit : List Str → Except Str (List Str × List Str)
  | [] => .error (s2l "unexpected end of headers")
  | line :: rest =>
    match rest with
    | [] => .error (s2l "unexpected end of headers")
    | _ :: _ =>
      if line = [] then .ok ([], rest)
      else
        match headerLinesSplit rest with
        | .error e => .error e
        | .ok p => .ok (line :: p.1, p.2)

/-- Fold continuation lines (beginning with space or tab) into their
preceding header line, joined by a single space, as textproto's
continued-line reading does before key/value splitting. -/
def foldContAux (cur : Str) : List Str → List Str
  | [] => [cur]
  | l :: rest =>
    match l with
    | [] => cur :: foldContAux [] rest
    | c :: _ =>
      if isSpaceTab c then foldContAux (cur ++ ' ' :: l.dropWhile isSpaceTab) rest
      else cur :: foldContAux l rest

def foldCont : List Str → List Str
  | [] => []
  | l :: rest => foldContAux l rest

/-- Turn folded header lines into key/value pairs: each line is split
at its first colon; a line with no colon, an empty line, or a line
starting with whitespace (a continuation with no header before it) is
an error. -/
def parseHeaderKVs : List Str → Except Str (List (Str × Str))
  | [] => .ok []
  | line :: rest =>
    match line with
    | [] => .error (s2l "empty header line")
    | c :: _ =>
      if isSpaceTab c then .error (s2l "continuation without header")
      else
        match splitColon line with
        | none => .error (s2l "malformed header line")
        | some kv =>
          match parseHeaderKVs rest with
          | .error e => .error e
          | .ok hs => .ok (kv :: hs)

/-- Model of `mail.ReadMessage`: split into lines, read the header
block up to the blank line (folding continuations), and return the
headers together with the raw body after the blank line. -/
def readMessage (b : Str) : Except Str (List (Str × Str) × Str) :=
  match headerLinesSplit (splitNl b) with
  | .error e => .error e
  | .ok (hlines, bodySegs) =>
    match parseHeaderKVs (foldCont hlines) with
    | .error e => .error e
    | .ok hs => .ok (hs, joinNl bodySegs)

def lowerChar (c : Char) : Char :=
  if 'A' ≤ c && c ≤ 'Z' then Char.ofNat (c.toNat + 32) else c

/-- Case-insensitive key comparison (textproto canonicalizes header
key case). -/
def keyEq (a b : Str) : Bool := a.map lowerChar == b.map lowerChar

/-- `Header.Get`: the first header with the given (canonicalized) key. -/
def headerGet (hs : List (Str × Str)) (key : Str) : Option Str :=
  (hs.find? (fun kv => keyEq kv.1 key)).map (fun kv => kv.2)

theorem mem_of_mem_tail {α : Type} (l : List α) (x : α) (h : x ∈ l.tail) :
    x ∈ l := by
  cases l with
  | nil => simp at h
  | cons a l => exact List.mem_cons_of_mem _ h

theorem contains_append_right (k X : Str) (c : Char) :
    (k ++ c :: X).contains c = true := by
  have : c ∈ k ++ c :: X := List.mem_append_right _ (List.mem_cons_self _ _)
  simpa using this

theorem splitColon_eval (k v : Str) (hk : ':' ∉ k)
    (hv : v.dropWhile isSpaceTab = v) :
    splitColon (k ++ ':' :: ' ' :: v) = some (k, v) := by
  have hkp : ∀ x ∈ k, (x != ':') = true := by
    intro x hx
    simp only [bne_iff_ne, ne_eq]
    intro hEq
    exact hk (hEq ▸ hx)
  rw [splitColon, if_pos (contains_append_right k (' ' :: v) ':'),
    takeWhile_append_stop _ k ':' (' ' :: v) hkp (by simp),
    dropWhile_append_stop _ k ':' (' ' :: v) hkp (by simp)]
  show some (k, (' ' :: v).dropWhile isSpaceTab) = _
  rw [List.dropWhile_cons, if_pos (by decide), hv]

/-- Values produced by `splitColon` are left-trimmed and draw their
characters from the line. -/
theorem splitColon_inv (l k v : Str) (h : splitColon l = some (k, v)) :
    v.dropWhile isSpaceTab = v ∧ (∀ c ∈ v, c ∈ l) := by
  rw [splitColon] at h
  split at h
  · obtain ⟨rfl, rfl⟩ :
        l.takeWhile (fun c => c != ':') = k ∧
        ((l.dropWhile (fun c => c != ':')).tail).dropWhile isSpaceTab = v := by
      constructor <;> (cases h; rfl)
    refine ⟨dropWhile_idem _ _, ?_⟩
    intro c hc
    have := mem_of_mem_dropWhile _ _ _ hc
    have := mem_of_mem_tail _ _ this
    exact mem_of_mem_dropWhile _ _ _ this
  · cases h

theorem parseHeaderKVs_values (ls : List Str) (hs : List (Str × Str))
    (h : parseHeaderKVs ls = .ok hs) (hnl : ∀ l ∈ ls, '\n' ∉ l) :
    ∀ kv ∈ hs, '\n' ∉ kv.2 ∧ kv.2.dropWhile isSpaceTab = kv.2 := by
  induction ls generalizing hs with
  | nil =>
    obtain rfl : ([] : List (Str × Str)) = hs := by cases h; rfl
    intro kv hkv
    simp at hkv
  | cons line rest ih =>
    rw [parseHeaderKVs.eq_def] at h
    cases line with
    | nil => cases h
    | cons c lt =>
      simp only at h
      split at h
      · cases h
      · cases hsc : splitColon (c :: lt) with
        | none => rw [hsc] at h; cases h
        | some kv0 =>
          rw [hsc] at h
          simp only at h
          cases hrec : parseHeaderKVs rest with
          | error e => rw [hrec] at h; cases h
          | ok hs2 =>
            rw [hrec] at h
            simp only at h
            obtain rfl : kv0 :: hs2 = hs := by cases h; rfl
            intro kv hkv
            rcases List.mem_cons.mp hkv with rfl | hkv
            · obtain ⟨htr, hmem⟩ := splitColon_inv _ _ _ hsc
              refine ⟨?_, htr⟩
              intro hnlv
              exact hnl _ (List.mem_cons_self _ _) (hmem '\n' hnlv)
            · exact ih hs2 hrec (fun l hl => hnl l (List.mem_cons_of_mem _ hl)) kv hkv

theorem foldContAux_mem_chars (cur : Str) (ls : List Str) :
    ∀ l ∈ foldContAux cur ls, ∀ c ∈ l,
      c ∈ cur ∨ (∃ x ∈ ls, c ∈ x) ∨ c = ' ' := by
  induction ls generalizing cur with
  | nil =>
    intro l hl c hc
    rw [foldContAux.eq_def] at hl
    simp only [List.mem_singleton] at hl
    subst hl
    exact Or.inl hc
  | cons x rest ih =>
    intro l hl c hc
    rw [foldContAux.eq_def] at hl
    cases x with
    | nil =>
      simp only at hl
      rcases List.mem_cons.mp hl with rfl | hl
      · exact Or.inl hc
      · rcases ih [] l hl c hc with h | h | h
        · simp at h
        · exact Or.inr (Or.inl (by
            obtain ⟨y, hy, hcy⟩ := h
            exact ⟨y, List.mem_cons_of_mem _ hy, hcy⟩))
        · exact Or.inr (Or.inr h)
    | cons x0 xt =>
      simp only at hl
      split at hl
      · rcases ih _ l hl c hc with h | h | h
        · rcases List.mem_append.mp h with h | h
          · exact Or.inl h
          · rcases List.mem_cons.mp h with rfl | h
            · exact Or.inr (Or.inr rfl)
            · have := mem_of_mem_dropWhile _ _ _ h
              exact Or.inr (Or.inl ⟨x0 :: xt, List.mem_cons_self _ _, this⟩)
        · obtain ⟨y, hy, hcy⟩ := h
          exact Or.inr (Or.inl ⟨y, List.mem_cons_of_mem _ hy, hcy⟩)
        · exact Or.inr (Or.inr h)
      · rcases List.mem_cons.mp hl with rfl | hl
        · exact Or.inl hc
        · rcases ih _ l hl c hc with h | h | h
          · exact Or.inr (Or.inl ⟨x0 :: xt, List.mem_cons_self _ _, h⟩)
          · obtain ⟨y, hy, hcy⟩ := h
            exact Or.inr (Or.inl ⟨y, List.mem_cons_of_mem _ hy, hcy⟩)
          · exact Or.inr (Or.inr h)

theorem foldCont_no_nl (ls : List Str) (h : ∀ l ∈ ls, '\n' ∉ l) :
    ∀ l ∈ foldCont ls, '\n' ∉ l := by
  intro l hl hnl
  cases ls with
  | nil => simp [foldCont] at hl
  | cons x rest =>
    rw [foldCont] at hl
    rcases foldContAux_mem_chars x rest l hl '\n' hnl with hc | hc | hc
    · exact h x (List.mem_cons_self _ _) hc
    · obtain ⟨y, hy, hcy⟩ := hc
      exact h y (List.mem_cons_of_mem _ hy) hcy
    · exact absurd hc (by decide)

theorem headerLinesSplit_mem (ls : List Str) (hl : List Str) (rest : List Str)
    (h : headerLinesSplit ls = .ok (hl, rest)) :
    ∀ l ∈ hl, l ∈ ls := by
  induction ls generalizing hl rest with
  | nil => cases h
  | cons line tail ih =>
    rw [headerLinesSplit.eq_def] at h
    cases tail with
    | nil => cases h
    | cons t0 ts =>
      simp only at h
      split at h
      · obtain ⟨rfl, rfl⟩ : ([] : List Str) = hl ∧ t0 :: ts = rest := by
          constructor <;> (cases h; rfl)
        intro l hmem
        simp at hmem
      · cases hrec : headerLinesSplit (t0 :: ts) with
        | error e => rw [hrec] at h; cases h
        | ok p =>
          rw [hrec] at h
          simp only at h
          obtain ⟨rfl, rfl⟩ : line :: p.1 = hl ∧ p.2 = rest := by
            constructor <;> (cases h; rfl)
          intro l hmem
          rcases List.mem_cons.mp hmem with rfl | hmem
          · exact List.mem_cons_self _ _
          · exact List.mem_cons_of_mem _ (ih p.1 p.2 (by cases p; exact hrec) l hmem)

/-- Every header value read from a message is newline-free and
left-trimmed. -/
theorem readMessage_values (b : Str) (hs : List (Str × Str)) (body : Str)
    (h : readMessage b = .ok (hs, body)) :
    ∀ kv ∈ hs, '\n' ∉ kv.2 ∧ kv.2.dropWhile isSpaceTab = kv.2 := by
  rw [readMessage] at h
  cases hhl : headerLinesSplit (splitNl b) with
  | error e => rw [hhl] at h; cases h
  | ok p =>
    obtain ⟨hlines, bodySegs⟩ := p
    rw [hhl] at h
    simp only at h
    cases hkv : parseHeaderKVs (foldCont hlines) with
    | error e => rw [hkv] at h; cases h
    | ok hs2 =>
      rw [hkv] at h
      simp only at h
      obtain ⟨rfl, rfl⟩ : hs2 = hs ∧ joinNl bodySegs = body := by
        constructor <;> (cases h; rfl)
      apply parseHeaderKVs_values _ _ hkv
      apply foldCont_no_nl
      intro l hl
      exact not_mem_nl_of_mem_splitNl b l (headerLinesSplit_mem _ _ _ hhl l hl)

theorem joinNl_splitNl (b : Str) : joinNl (splitNl b) = b := by
  obtain ⟨l, ls, h⟩ : ∃ l ls, splitNl b = l :: ls := by
    cases hsp : splitNl b with
    | nil => exact absurd hsp (splitNl_ne_nil b)
    | cons x xs => exact ⟨x, xs, rfl⟩
  rw [h, joinNl]
  exact (splitNl_reassemble b l ls h).symm

theorem foldContAux_no_cont (cur : Str) (ls : List Str)
    (h : ∀ l ∈ ls, ∃ c r, l = c :: r ∧ isSpaceTab c = false) :
    foldContAux cur ls = cur :: ls := by
  induction ls generalizing cur with
  | nil => rw [foldContAux.eq_def]
  | cons x rest ih =>
    obtain ⟨c, r, rfl, hc⟩ := h x (List.mem_cons_self x rest)
    show (if isSpaceTab c = true
        then foldContAux (cur ++ ' ' :: ((c :: r).dropWhile isSpaceTab)) rest
        else cur :: foldContAux (c :: r) rest) = cur :: (c :: r) :: rest
    rw [if_neg (by simp [hc]),
      ih (c :: r) (fun l hl => h l (List.mem_cons_of_mem _ hl))]

theorem foldCont_no_cont (ls : List Str)
    (h : ∀ l ∈ ls, ∃ c r, l = c :: r ∧ isSpaceTab c = false) :
    foldCont ls = ls := by
  cases ls with
  | nil => rfl
  | cons x rest =>
    rw [foldCont]
    exact foldContAux_no_cont x rest (fun l hl => h l (List.mem_cons_of_mem _ hl))

theorem parseHeaderKVs_step (c : Char) (k v : Str) (rest : List Str)
    (hc : isSpaceTab c = false) (hk : ':' ∉ c :: k)
    (hv : v.dropWhile isSpaceTab = v) :
    parseHeaderKVs ((c :: (k ++ ':' :: ' ' :: v)) :: rest) =
      match parseHeaderKVs rest with
      | .error e => .error e
      | .ok hs => .ok ((c :: k, v) :: hs) := by
  show (if isSpaceTab c = true then Except.error (s2l "continuation without header")
    else match splitColon (c :: (k ++ ':' :: ' ' :: v)) with
      | none => Except.error (s2l "malformed header line")
      | some kv =>
        match parseHeaderKVs rest with
        | Except.error e => Except.error e
        | Except.ok hs => Except.ok (kv :: hs)) = _
  rw [if_neg (by simp [hc]),
    show (c :: (k ++ ':' :: ' ' :: v) : Str) = (c :: k) ++ ':' :: ' ' :: v from rfl,
    splitColon_eval (c :: k) v hk hv]

theorem headerLinesSplit_step (l : Str) (hl : l ≠ []) (x : Str) (rest2 : List Str) :
    headerLinesSplit (l :: x :: rest2) =
      match headerLinesSplit (x :: rest2) with
      | .error e => .error e
      | .ok p => .ok (l :: p.1, p.2) := by
  show (if l = [] then Except.ok ([], x :: rest2)
    else match headerLinesSplit (x :: rest2) with
      | Except.error e => Except.error e
      | Except.ok p => Except.ok (l :: p.1, p.2)) = _
  rw [if_neg hl]

theorem headerLinesSplit_blank (x : Str) (rest2 : List Str) :
    headerLinesSplit ([] :: x :: rest2) = .ok ([], x :: rest2) := rfl

/-- Reading the message that `Patch.Write` emits after its `From `
envelope line: three headers, a blank line, then the body. -/
theorem readMessage_written (author dateS subj body : Str)
    (hA : '\n' ∉ author) (hAt : author.dropWhile isSpaceTab = author)
    (hD : '\n' ∉ dateS) (hDt : dateS.dropWhile isSpaceTab = dateS)
    (hS : '\n' ∉ subj) (hSt : subj.dropWhile isSpaceTab = subj) :
    readMessage (s2l "From: " ++ author ++ '\n' ::
      (s2l "Date: " ++ dateS ++ '\n' ::
        (s2l "Subject: " ++ subj ++ '\n' :: ('\n' :: body)))) =
      .ok ([(s2l "From", author), (s2l "Date", dateS), (s2l "Subject", subj)], body) := by
  obtain ⟨b0, bs, hsp⟩ : ∃ b0 bs, splitNl body = b0 :: bs := by
    cases hb : splitNl body with
    | nil => exact absurd hb (splitNl_ne_nil body)
    | cons y ys => exact ⟨y, ys, rfl⟩
  have hl1 : '\n' ∉ s2l "From: " ++ author := by
    intro hm
    rcases List.mem_append.mp hm with hm | hm
    · revert hm; decide
    · exact hA hm
  have hl2 : '\n' ∉ s2l "Date: " ++ dateS := by
    intro hm
    rcases List.mem_append.mp hm with hm | hm
    · revert hm; decide
    · exact hD hm
  have hl3 : '\n' ∉ s2l "Subject: " ++ subj := by
    intro hm
    rcases List.mem_append.mp hm with hm | hm
    · revert hm; decide
    · exact hS hm
  have hsplit : splitNl (s2l "From: " ++ author ++ '\n' ::
      (s2l "Date: " ++ dateS ++ '\n' ::
        (s2l "Subject: " ++ subj ++ '\n' :: ('\n' :: body)))) =
      (s2l "From: " ++ author) :: (s2l "Date: " ++ dateS) ::
        (s2l "Subject: " ++ subj) :: [] :: b0 :: bs := by
    rw [show (s2l "From: " ++ author ++ '\n' ::
        (s2l "Date: " ++ dateS ++ '\n' ::
          (s2l "Subject: " ++ subj ++ '\n' :: ('\n' :: body))) : Str) =
      (s2l "From: " ++ author) ++ '\n' ::
        ((s2l "Date: " ++ dateS) ++ '\n' ::
          ((s2l "Subject: " ++ subj) ++ '\n' :: ('\n' :: body))) from by
      simp [List.append_assoc]]
    rw [splitNl_line _ hl1, splitNl_line _ hl2, splitNl_line _ hl3]
    rw [show splitNl ('\n' :: body) = [] :: splitNl body from by
      rw [splitNl]; simp]
    rw [hsp]
  rw [readMessage, hsplit]
  rw [headerLinesSplit_step (s2l "From: " ++ author)
      (show ('F' :: (s2l "rom: " ++ author) : Str) ≠ [] from by simp) _ _,
    headerLinesSplit_step (s2l "Date: " ++ dateS)
      (show ('D' :: (s2l "ate: " ++ dateS) : Str) ≠ [] from by simp) _ _,
    headerLinesSplit_step (s2l "Subject: " ++ subj)
      (show ('S' :: (s2l "ubject: " ++ subj) : Str) ≠ [] from by simp) _ _,
    headerLinesSplit_blank]
  simp only []
  rw [foldCont_no_cont _ (by
    intro l hl
    rcases List.mem_cons.mp hl with rfl | hl
    · exact ⟨'F', _, rfl, by decide⟩
    rcases List.mem_cons.mp hl with rfl | hl
    · exact ⟨'D', _, rfl, by decide⟩
    rcases List.mem_cons.mp hl with rfl | hl
    · exact ⟨'S', _, rfl, by decide⟩
    simp at hl)]
  rw [show (s2l "From: " ++ author : Str) = 'F' :: (s2l "rom" ++ ':' :: ' ' :: author)
      from rfl,
    parseHeaderKVs_step 'F' (s2l "rom") author _ (by decide) (by decide) hAt,
    show (s2l "Date: " ++ dateS : Str) = 'D' :: (s2l "ate" ++ ':' :: ' ' :: dateS)
      from rfl,
    parseHeaderKVs_step 'D' (s2l "ate") dateS _ (by decide) (by decide) hDt,
    show (s2l "Subject: " ++ subj : Str) = 'S' :: (s2l "ubject" ++ ':' :: ' ' :: subj)
      from rfl,
    parseHeaderKVs_step 'S' (s2l "ubject") subj _ (by decide) (by decide) hSt]
  simp only [parseHeaderKVs]
  have hbody : joinNl (b0 :: bs) = body := by
    rw [← hsp]; exact joinNl_splitNl body
  rw [hbody]
  rfl

theorem headerGet_from (a d s : Str) :
    headerGet [(s2l "From", a), (s2l "Date", d), (s2l "Subject", s)]
      (s2l "From") = some a := by
  rw [headerGet, List.find?]
  rw [show keyEq (s2l "From") (s2l "From") = true from by decide]
  rfl

theorem headerGet_date (a d s : Str) :
    headerGet [(s2l "From", a), (s2l "Date", d), (s2l "Subject", s)]
      (s2l "Date") = some d := by
  rw [headerGet, List.find?]
  rw [show keyEq (s2l "From") (s2l "Date") = false from by decide]
  rw [List.find?]
  rw [show keyEq (s2l "Date") (s2l "Date") = true from by decide]
  rfl

theorem headerGet_subject (a d s : Str) :
    headerGet [(s2l "From", a), (s2l "Date", d), (s2l "Subject", s)]
      (s2l "Subject") = some s := by
  rw [headerGet, List.find?]
  rw [show keyEq (s2l "From") (s2l "Subject") = false from by decide]
  rw [List.find?]
  rw [show keyEq (s2l "Date") (s2l "Subject") = false from by decide]
  rw [List.find?]
  rw [show keyEq (s2l "Subject") (s2l "Subject") = true from by decide]
  rfl

/-! ### Digests, Diff and Patch (git/repo.go, git/patch.go) -/

/-- A git digest, modelled as its hex rendering (`Hex()` produces
lowercase hex). -/
structure Digest where
  hex : Str
deriving DecidableEq

/-- Model of `SHA1.Parse` (grailbio/base digest): a 40-character hex
string, accepted in either case and stored as `Hex()` renders it, in
lowercase. -/
def sha1Parse (s : Str) : Except Str Digest :=
  if s.length = 40 && s.all isHexDigitC then .ok ⟨s.map toLowerHex⟩
  else .error (s2l "invalid digest")

theorem sha1Parse_wf (s : Str) (d : Digest) (h : sha1Parse s = .ok d) :
    d.hex.length = 40 ∧ d.hex.all isLowerHexDigit := by
  rw [sha1Parse] at h
  split at h
  · rename_i hcond
    rw [Bool.and_eq_true] at hcond
    obtain ⟨hd⟩ : Digest.mk (s.map toLowerHex) = d := by simp_all
    constructor
    · simp only [List.length_map]
      simpa using hcond.1
    · rw [List.all_eq_true] at hcond ⊢
      intro c hc
      obtain ⟨x, hx, rfl⟩ := List.mem_map.mp hc
      exact toLowerHex_lower x (hcond.2 x hx)
  · exact absurd h (by simp)

theorem sha1Parse_hex (d : Digest) (hlen : d.hex.length = 40)
    (hlo : d.hex.all isLowerHexDigit) : sha1Parse d.hex = .ok d := by
  rw [sha1Parse, if_pos]
  · congr 1
    cases d with
    | mk hex =>
      congr 1
      rw [List.all_eq_true] at hlo
      have : ∀ c ∈ hex, toLowerHex c = c := fun c hc => toLowerHex_of_lower c (hlo c hc)
      simp only [Digest.hex] at this ⊢
      exact List.map_congr_left this |>.trans (List.map_id hex)
  · rw [Bool.and_eq_true]
    refine ⟨by simpa using hlen, ?_⟩
    rw [List.all_eq_true] at hlo ⊢
    intro c hc
    rw [isHexDigitC, Bool.or_eq_true]
    exact Or.inl (hlo c hc)

/-- Model of patch.go `scanLine`: the first line, advancing past its
newline (the whole string when it has no newline). -/
def scanLine (b : Str) : Str × Str :=
  match lineSplit b with
  | (l, none) => (l, [])
  | (l, some r) => (l, r)

/-- Model of `bytes.Fields`: the maximal whitespace-separated runs. -/
def fieldsOf : Str → List Str
  | [] => []
  | c :: rest =>
    if isWS c then fieldsOf rest
    else (c :: rest.takeWhile (fun x => !isWS x)) :: fieldsOf (rest.dropWhile (fun x => !isWS x))
termination_by s => s.length
decreasing_by
  · simp [Nat.lt_succ_self]
  · have := length_dropWhile_le (fun x => !isWS x) rest
    simp only [List.length_cons]
    omega

theorem scanLine_append (l : Str) (hl : '\n' ∉ l) (r : Str) :
    scanLine (l ++ '\n' :: r) = (l, r) := by
  rw [scanLine, lineSplit_append l hl r]

/-- One whitespace-free field followed by a space. -/
theorem fieldsOf_token (t r : Str) (ht : t ≠ [])
    (hws : ∀ c ∈ t, isWS c = false) :
    fieldsOf (t ++ ' ' :: r) = t :: fieldsOf r := by
  cases t with
  | nil => exact absurd rfl ht
  | cons c t =>
    have hc := hws c (List.mem_cons_self c t)
    have ht2 : ∀ x ∈ t, isWS x = false :=
      fun x hx => hws x (List.mem_cons_of_mem _ hx)
    rw [List.cons_append, fieldsOf, if_neg (by simp [hc]),
      takeWhile_append_stop _ t ' ' r (by intro x hx; simp [ht2 x hx])
        (by simp [isWS]),
      dropWhile_append_stop _ t ' ' r (by intro x hx; simp [ht2 x hx])
        (by simp [isWS]),
      fieldsOf, if_pos (by simp [isWS])]

/-- git.Diff: one file's change. -/
structure Diff where
  path : Str
  meta : Str
  body : Str
deriving DecidableEq

/-- git.Patch: a single atomic change. -/
structure Patch where
  id : Digest
  author : Str
  time : GitTime
  subject : Str
  body : Str
  diffs : List Diff
deriving DecidableEq

/-- Model of patch.go `parsePatchHeader`: scan the `From <digest>`
line, parse the digest, read the mail message, require exactly one
From address, a parseable Date, and a non-empty Subject; the message
body becomes the patch body and no diffs are attached. -/
def parsePatchHeader (b : Str) : Except Str Patch :=
  match fieldsOf (scanLine b).1 with
  | _ :: f1 :: _ =>
    match sha1Parse f1 with
    | .error e => .error e
    | .ok id =>
      match readMessage (scanLine b).2 with
      | .error e => .error e
      | .ok (headers, body) =>
        match headerGet headers (s2l "From") with
        | none => .error (s2l "no From header")
        | some fromVal =>
          match parseOneAddress fromVal with
          | .error e => .error e
          | .ok a =>
            match headerGet headers (s2l "Date") with
            | none => .error (s2l "no Date header")
            | some dateVal =>
              match parseGitDate dateVal with
              | .error e => .error e
              | .ok t =>
                match headerGet headers (s2l "Subject") with
                | none => .error (s2l "patch is missing subject")
                | some subject =>
                  if subject = [] then .error (s2l "patch is missing subject")
                  else .ok ⟨id, renderAddr a, t, subject, body, []⟩
  | _ => .error (s2l "malformed patch")

/-- The bytes `Patch.Write` emits for one diff section. -/
def diffBytes (d : Diff) : Str :=
  s2l "diff --git a/" ++ d.path ++ s2l " b/" ++ d.path ++ '\n' ::
    (d.meta ++ '\n' :: (d.body ++ ['\n']))

/-- Model of `(Patch).Write` (patch.go): the exact byte sequence the
serializer produces — the `From` envelope line, the three mail
headers, a blank line, the escaped body, the `---` separator and the
diff sections. -/
def patchWrite (p : Patch) : Str :=
  s2l "From " ++ p.id.hex ++ s2l " Mon Sep 17 00:00:00 2001" ++ '\n' ::
    (s2l "From: " ++ p.author ++ '\n' ::
      (s2l "Date: " ++ fmtGitTime p.time ++ '\n' ::
        (s2l "Subject: " ++ p.subject ++ '\n' ::
          ('\n' :: escapeBody p.body ++ '\n' :: s2l "---" ++ '\n' :: '\n' :: '\n' ::
            (p.diffs.map diffBytes).flatten))))

/-- A header `Get` hit names a pair of the header list. -/
theorem headerGet_mem (hs : List (Str × Str)) (key v : Str)
    (h : headerGet hs key = some v) : ∃ k, (k, v) ∈ hs := by
  rw [headerGet] at h
  cases hf : hs.find? (fun kv => keyEq kv.1 key) with
  | none => rw [hf] at h; cases h
  | some kv =>
    rw [hf] at h
    simp only [Option.map] at h
    obtain rfl : kv.2 = v := by cases h; rfl
    refine ⟨kv.1, ?_⟩
    have := List.mem_of_find?_eq_some hf
    simpa using this

/-- The mail body `Patch.Write` leaves after its blank line: the escaped
free-text body, the `---` separator with its two blank lines, and the
serialized diff sections. -/
def writtenBody (p : Patch) : Str :=
  escapeBody p.body ++ '\n' :: s2l "---" ++ '\n' :: '\n' :: '\n' ::
    (p.diffs.map diffBytes).flatten

/-- What a successful header parse guarantees about the patch's fields. -/
theorem parsePatchHeader_inv (b : Str) (p : Patch)
    (h : parsePatchHeader b = .ok p) :
    p.diffs = [] ∧ p.id.hex.length = 40 ∧ p.id.hex.all isLowerHexDigit ∧
    (∃ a : Address, p.author = renderAddr a ∧ '>' ∉ a.addr ∧
      '\n' ∉ a.name ∧ '\n' ∉ a.addr) ∧
    p.time.wf ∧ p.subject ≠ [] ∧ '\n' ∉ p.subject ∧
    p.subject.dropWhile isSpaceTab = p.subject := by
  rw [parsePatchHeader] at h
  split at h
  case h_2 => cases h
  cases hid : sha1Parse ‹Str› with
  | error e => rw [hid] at h; cases h
  | ok id =>
  rw [hid] at h
  simp only at h
  cases hrm : readMessage (scanLine b).2 with
  | error e => rw [hrm] at h; cases h
  | ok pr =>
  obtain ⟨headers, msgBody⟩ := pr
  rw [hrm] at h
  simp only at h
  cases hfrom : headerGet headers (s2l "From") with
  | none => rw [hfrom] at h; cases h
  | some fromVal =>
  rw [hfrom] at h
  simp only at h
  cases haddr : parseOneAddress fromVal with
  | error e => rw [haddr] at h; cases h
  | ok a =>
  rw [haddr] at h
  simp only at h
  cases hdate : headerGet headers (s2l "Date") with
  | none => rw [hdate] at h; cases h
  | some dateVal =>
  rw [hdate] at h
  simp only at h
  cases ht : parseGitDate dateVal with
  | error e => rw [ht] at h; cases h
  | ok t =>
  rw [ht] at h
  simp only at h
  cases hsub : headerGet headers (s2l "Subject") with
  | none => rw [hsub] at h; cases h
  | some subject =>
  rw [hsub] at h
  simp only at h
  split at h
  · cases h
  · rename_i hne
    obtain rfl : Patch.mk id (renderAddr a) t subject msgBody [] = p := by
      cases h; rfl
    obtain ⟨hl40, hlo⟩ := sha1Parse_wf _ id hid
    have hvals := readMessage_values _ _ _ hrm
    obtain ⟨kf, hkf⟩ := headerGet_mem headers (s2l "From") fromVal hfrom
    obtain ⟨hfnl, _⟩ := hvals _ hkf
    obtain ⟨hgt, hns, has⟩ := parseOneAddress_inv fromVal a haddr
    obtain ⟨ks, hks⟩ := headerGet_mem headers (s2l "Subject") subject hsub
    obtain ⟨hsnl, hstr⟩ := hvals _ hks
    refine ⟨rfl, hl40, hlo, ⟨a, rfl, hgt, ?_, ?_⟩,
      parseGitDate_wf _ _ ht, hne, hsnl, hstr⟩
    · intro hm; exact hfnl (hns '\n' hm)
    · intro hm; exact hfnl (has '\n' hm)

/-- Reparsing the serialized form of a well-formed patch: the header
fields come back intact and the parsed body is `writtenBody`. -/
theorem parsePatchHeader_patchWrite (p : Patch) (a : Address)
    (hlen : p.id.hex.length = 40) (hlo : p.id.hex.all isLowerHexDigit)
    (hauth : p.author = renderAddr a) (hgt : '>' ∉ a.addr)
    (hnn : '\n' ∉ a.name) (hna : '\n' ∉ a.addr)
    (hwf : p.time.wf) (hs1 : p.subject ≠ []) (hs2 : '\n' ∉ p.subject)
    (hs3 : p.subject.dropWhile isSpaceTab = p.subject) :
    parsePatchHeader (patchWrite p) =
      .ok ⟨p.id, p.author, p.time, p.subject, writtenBody p, []⟩ := by
  have hnlhex : '\n' ∉ p.id.hex := lowerHex_no_nl _ hlo
  have hl1 : '\n' ∉
      ((s2l "From " ++ p.id.hex) ++ s2l " Mon Sep 17 00:00:00 2001" : Str) := by
    intro hm
    rcases List.mem_append.mp hm with hm | hm
    · rcases List.mem_append.mp hm with hm | hm
      · revert hm; decide
      · exact hnlhex hm
    · revert hm; decide
  have hA : '\n' ∉ p.author := by
    rw [hauth]; exact renderAddr_no_nl a hnn hna
  have hAt : p.author.dropWhile isSpaceTab = p.author := by
    rw [hauth]; exact renderAddr_trimmed a
  have hscan : scanLine (patchWrite p) =
      ((s2l "From " ++ p.id.hex) ++ s2l " Mon Sep 17 00:00:00 2001",
        s2l "From: " ++ p.author ++ '\n' ::
          (s2l "Date: " ++ fmtGitTime p.time ++ '\n' ::
            (s2l "Subject: " ++ p.subject ++ '\n' ::
              ('\n' :: writtenBody p)))) := by
    rw [patchWrite, scanLine_append _ hl1 _]
    rw [writtenBody]
    simp only [List.cons_append]
  rw [parsePatchHeader, hscan]
  simp only
  have hfl : ((s2l "From " ++ p.id.hex) ++ s2l " Mon Sep 17 00:00:00 2001" : Str) =
      s2l "From" ++ ' ' :: (p.id.hex ++ ' ' :: s2l "Mon Sep 17 00:00:00 2001") := by
    simp only [List.append_assoc]
    rfl
  rw [hfl,
    fieldsOf_token (s2l "From") _ (by decide) (by decide),
    fieldsOf_token p.id.hex _ (by intro hnil; rw [hnil] at hlen; cases hlen)
      (lowerHex_no_ws _ hlo)]
  simp only
  rw [sha1Parse_hex p.id hlen hlo]
  simp only
  rw [readMessage_written p.author (fmtGitTime p.time) p.subject (writtenBody p)
    hA hAt (not_nl_fmtGitTime p.time) (fmtGitTime_trimmed p.time) hs2 hs3]
  simp only
  rw [headerGet_from]
  simp only
  rw [hauth, parseOneAddress_renderAddr a hgt]
  simp only
  rw [headerGet_date]
  simp only
  rw [parseGitDate_fmtGitTime p.time hwf]
  simp only
  rw [headerGet_subject]
  simp only
  rw [if_neg hs1]

/-! ### Concrete patches for witnesses and counterexamples -/

def sampleAddr : Address := ⟨[], s2l "a@b"⟩

def sampleHex : Str := s2l "0123456789abcdef0123456789abcdef01234567"

def samplePatch : Patch :=
  ⟨⟨sampleHex⟩, renderAddr sampleAddr, ⟨7, 1, 2006, 15, 4, 5, true, 7, 0⟩,
    s2l "subject", s2l "hello", []⟩

/-- The patch `parsePatchHeader` recovers from `patchWrite samplePatch`. -/
def sampleParsed : Patch :=
  ⟨samplePatch.id, samplePatch.author, samplePatch.time, samplePatch.subject,
    writtenBody samplePatch, []⟩

/-- The patch `parsePatchHeader` recovers from `patchWrite sampleParsed`. -/
def sampleReparsed : Patch :=
  ⟨sampleParsed.id, sampleParsed.author, sampleParsed.time, sampleParsed.subject,
    writtenBody sampleParsed, []⟩

/-- C1 (corrected): for any patch `p` that `parsePatchHeader` produced,
reparsing `patchWrite p` preserves the ID, author, time and subject
fields, but the reparsed body is the escaped body followed by the
`---` separator line and two blank lines — not `p.body` modulo the
zero-width-space markers. -/
theorem claim_C1_patch_roundtrip (b : Str) (p : Patch)
    (h : parsePatchHeader b = .ok p) :
    ∃ q : Patch, parsePatchHeader (patchWrite p) = .ok q ∧
      q.id = p.id ∧ q.author = p.author ∧ q.time = p.time ∧
      q.subject = p.subject ∧
      q.body = escapeBody p.body ++ '\n' :: s2l "---" ++ '\n' :: '\n' :: '\n' :: [] ∧
      q.diffs = [] := by
  obtain ⟨hdiffs, hlen, hlo, ⟨a, hauth, hgt, hnn, hna⟩, hwf, hs1, hs2, hs3⟩ :=
    parsePatchHeader_inv b p h
  refine ⟨⟨p.id, p.author, p.time, p.subject, writtenBody p, []⟩,
    parsePatchHeader_patchWrite p a hlen hlo hauth hgt hnn hna hwf hs1 hs2 hs3,
    rfl, rfl, rfl, rfl, ?_, rfl⟩
  show writtenBody p = _
  rw [writtenBody, hdiffs]
  rfl

/-- C1 witness: the corrected round trip at a concrete parsed patch. -/
theorem claim_C1_patch_roundtrip_witness :
    ∃ q : Patch, parsePatchHeader (patchWrite sampleParsed) = .ok q ∧
      q.id = sampleParsed.id ∧ q.author = sampleParsed.author ∧
      q.time = sampleParsed.time ∧ q.subject = sampleParsed.subject ∧
      q.body = escapeBody sampleParsed.body ++ '\n' :: s2l "---" ++
        '\n' :: '\n' :: '\n' :: [] ∧
      q.diffs = [] :=
  claim_C1_patch_roundtrip (patchWrite samplePatch) sampleParsed
    (parsePatchHeader_patchWrite samplePatch sampleAddr (by decide) (by decide)
      rfl (by decide) (by decide) (by decide) (by decide) (by decide) (by decide)
      (by decide))

/-- C1 counterexample: a concrete parsed patch whose serialized form,
reparsed, carries a body that differs from the original body even
after every zero width space is removed — the `---` separator block
that `patchWrite` appends survives into the reparsed body. -/
theorem claim_C1_body_not_preserved :
    parsePatchHeader (patchWrite samplePatch) = .ok sampleParsed ∧
    parsePatchHeader (patchWrite sampleParsed) = .ok sampleReparsed ∧
    sampleReparsed.id = sampleParsed.id ∧
    sampleReparsed.author = sampleParsed.author ∧
    sampleReparsed.time = sampleParsed.time ∧
    sampleReparsed.subject = sampleParsed.subject ∧
    sampleReparsed.body.filter (fun c => c != zwsp) ≠
      sampleParsed.body.filter (fun c => c != zwsp) := by
  refine ⟨parsePatchHeader_patchWrite samplePatch sampleAddr (by decide)
      (by decide) rfl (by decide) (by decide) (by decide) (by decide)
      (by decide) (by decide) (by decide),
    parsePatchHeader_patchWrite sampleParsed sampleAddr (by decide)
      (by decide) rfl (by decide) (by decide) (by decide) (by decide)
      (by decide) (by decide) (by decide),
    rfl, rfl, rfl, rfl, ?_⟩
  obtain ⟨he1, -⟩ := escapeBody_split (s2l "hello") (s2l "hello") [] (by decide)
  have hb1 : writtenBody samplePatch =
      s2l "hello" ++ '\n' :: s2l "---" ++ '\n' :: '\n' :: '\n' :: [] := by
    have hpb : samplePatch.body = s2l "hello" := rfl
    rw [writtenBody, hpb, he1]
    rfl
  have hpb2 : sampleParsed.body =
      s2l "hello" ++ '\n' :: s2l "---" ++ '\n' :: '\n' :: '\n' :: [] := hb1
  obtain ⟨he2, -⟩ := escapeBody_split sampleParsed.body (s2l "hello")
    [s2l "---", [], [], []] (by rw [hpb2]; decide)
  show (writtenBody sampleParsed).filter (fun c => c != zwsp) ≠
    (writtenBody samplePatch).filter (fun c => c != zwsp)
  rw [hb1, writtenBody, he2]
  decide

/-- The patch of the C4 counterexample: its body's first line starts
with `diff`. -/
def firstLinePatch : Patch :=
  ⟨⟨sampleHex⟩, renderAddr sampleAddr, ⟨7, 1, 2006, 15, 4, 5, true, 7, 0⟩,
    s2l "subject", s2l "diff x", []⟩

/-- C4 counterexample: a body whose first line begins with `diff` is
serialized without any zero width space at all, so the first body line
is not escaped. -/
theorem claim_C4_first_line_unescaped :
    (s2l "diff").isPrefixOf firstLinePatch.body = true ∧
    zwsp ∉ patchWrite firstLinePatch := by
  refine ⟨by decide, ?_⟩
  obtain ⟨he, -⟩ := escapeBody_split (s2l "diff x") (s2l "diff x") [] (by decide)
  intro hm
  rw [patchWrite] at hm
  have hpb : firstLinePatch.body = s2l "diff x" := rfl
  rw [hpb, he] at hm
  revert hm
  decide

/-- C4 (amended): in `patchWrite`'s output the first line of the body
is emitted unchanged; every body line strictly after the first that
begins with `diff`, `---` or `+++` is prefixed with the zero width
space, and all other lines are emitted unchanged. -/
theorem claim_C4_escape_after_first (p : Patch) (l : Str) (ls : List Str)
    (h : splitNl p.body = l :: ls) :
    escapeBody p.body = l ++ nlJoin (ls.map escLine) ∧
    (∀ x, escLine x =
      if (s2l "diff").isPrefixOf x || (s2l "---").isPrefixOf x ||
          (s2l "+++").isPrefixOf x
      then zwsp :: x else x) ∧
    patchWrite p =
      s2l "From " ++ p.id.hex ++ s2l " Mon Sep 17 00:00:00 2001" ++ '\n' ::
        (s2l "From: " ++ p.author ++ '\n' ::
          (s2l "Date: " ++ fmtGitTime p.time ++ '\n' ::
            (s2l "Subject: " ++ p.subject ++ '\n' ::
              ('\n' :: (l ++ nlJoin (ls.map escLine)) ++ '\n' :: s2l "---" ++
                '\n' :: '\n' :: '\n' :: (p.diffs.map diffBytes).flatten)))) := by
  obtain ⟨h1, h2⟩ := escapeBody_split p.body l ls h
  refine ⟨h1, fun x => rfl, ?_⟩
  rw [patchWrite, h1]

/-- The patch of the C4 witness: a two-line body whose second line
starts with `diff`. -/
def secondLinePatch : Patch :=
  ⟨⟨sampleHex⟩, renderAddr sampleAddr, ⟨7, 1, 2006, 15, 4, 5, true, 7, 0⟩,
    s2l "subject", s2l "a" ++ '\n' :: s2l "diff b", []⟩

/-- C4 witness: the amended escaping law at a concrete two-line body. -/
theorem claim_C4_escape_after_first_witness :
    escapeBody secondLinePatch.body =
      s2l "a" ++ nlJoin ([s2l "diff b"].map escLine) ∧
    (∀ x, escLine x =
      if (s2l "diff").isPrefixOf x || (s2l "---").isPrefixOf x ||
          (s2l "+++").isPrefixOf x
      then zwsp :: x else x) ∧
    patchWrite secondLinePatch =
      s2l "From " ++ secondLinePatch.id.hex ++ s2l " Mon Sep 17 00:00:00 2001" ++ '\n' ::
        (s2l "From: " ++ secondLinePatch.author ++ '\n' ::
          (s2l "Date: " ++ fmtGitTime secondLinePatch.time ++ '\n' ::
            (s2l "Subject: " ++ secondLinePatch.subject ++ '\n' ::
              ('\n' :: (s2l "a" ++ nlJoin ([s2l "diff b"].map escLine)) ++
                '\n' :: s2l "---" ++ '\n' :: '\n' :: '\n' ::
                (secondLinePatch.diffs.map diffBytes).flatten)))) :=
  claim_C4_escape_after_first secondLinePatch (s2l "a") [s2l "diff b"] (by decide)

/-! ### The sync engine (main.go) -/

/-- A character of the `[a-z0-9]` class used by the sync-trailer
patterns. -/
def isIdChar (c : Char) : Bool := ('a' ≤ c && c ≤ 'z') || ('0' ≤ c && c ≤ '9')

/-- git.Commit, restricted to the fields the engine reads: the digest
and the commit message. -/
structure Commit where
  digest : Digest
  body : Str
deriving DecidableEq

def headIdChar : Str → Bool
  | [] => false
  | c :: _ => isIdChar c

/-- Model of `Commit.ShipitID` (git/repo.go): the capture of every
match of `(?:fb)?shipit-source-id: ([a-z0-9]+)` in the commit body,
leftmost first, non-overlapping. -/
def shipitIDs (s : Str) : List Str :=
  match s with
  | [] => []
  | c :: rest =>
    if (s2l "fbshipit-source-id: ").isPrefixOf (c :: rest) &&
        headIdChar ((c :: rest).drop 20) then
      ((c :: rest).drop 20).takeWhile isIdChar ::
        shipitIDs (((c :: rest).drop 20).dropWhile isIdChar)
    else if (s2l "shipit-source-id: ").isPrefixOf (c :: rest) &&
        headIdChar ((c :: rest).drop 18) then
      ((c :: rest).drop 18).takeWhile isIdChar ::
        shipitIDs (((c :: rest).drop 18).dropWhile isIdChar)
    else shipitIDs rest
termination_by s.length
decreasing_by
  · have h1 := length_dropWhile_le isIdChar (((c :: rest).drop 20))
    simp only [List.length_drop, List.length_cons] at h1 ⊢
    omega
  · have h1 := length_dropWhile_le isIdChar (((c :: rest).drop 18))
    simp only [List.length_drop, List.length_cons] at h1 ⊢
    omega
  · simp [Nat.lt_succ_self]

/-- main.go `rewriteRule`: the path matcher and the per-line
`oldRe.ReplaceAll(line, new)` replacement, with the two compiled
regexps abstracted as functions. -/
structure rewriteRule where
  pathRe : Str → Bool
  lineRepl : Str → Str

/-- Model of `(*rewriteRule).rewrite` (main.go): split the body on
newlines, replace within each line, and write each resulting line
followed by a newline byte. -/
def rewriteRule.rewrite (r : rewriteRule) (diff : Str) : Str :=
  ((splitNl diff).map (fun line => r.lineRepl line ++ ['\n'])).flatten

/-- main.go `rules`: the configured rule set, regexps abstracted as
matcher functions. -/
structure rules where
  strip : List (Str → Bool)
  stripMessagePaths : List (Str → Bool)
  stripCommits : List Str
  rewrite : List rewriteRule

/-- The strip-commit argument check of main.go's rule parsing: at
least 7 characters, all hex digits of either case. -/
def validStripCommitRule (h : Str) : Bool := 7 ≤ h.length && h.all isHexDigitC

/-- Model of `rules.isStripped` (main.go): `strings.HasPrefix` of the
commit's lowercase hex digest against each configured prefix. -/
def rules.isStripped (r : rules) (c : Commit) : Bool :=
  r.stripCommits.any (fun stripped => stripped.isPrefixOf c.digest.hex)

/-- Model of `rules.isPathStripped` (main.go). -/
def rules.isPathStripped (r : rules) (path : Str) : Bool :=
  r.strip.any (fun re => re path)

/-- Model of `rules.isMessagePathStripped` (main.go). -/
def rules.isMessagePathStripped (r : rules) (path : Str) : Bool :=
  r.stripMessagePaths.any (fun re => re path)

/-- Model of `rules.rewriteDiff` (main.go): each path-matching rewrite
rule is applied in declaration order to the evolving diff body. -/
def rules.rewriteDiff (r : rules) (d : Diff) : Diff :=
  r.rewrite.foldl
    (fun d rr => if rr.pathRe d.path then { d with body := rr.rewrite d.body } else d) d

/-- Model of `rules.isCommitApplicable` (main.go): false for stripped
commits; otherwise derive the commit's patch from the given repository
and test whether any diff survives the path-strip rules. -/
def rules.isCommitApplicable (r : rules) (c : Commit)
    (repoPatch : Digest → Except Str Patch) : Except Str Bool :=
  if r.isStripped c then .ok false
  else
    match repoPatch c.digest with
    | .error e => .error e
    | .ok patch =>
      .ok (0 < (patch.diffs.countP (fun d => !r.isPathStripped d.path)))

/-- One line of a commit message matching the locate-phase grep
pattern `^\s*\(fb\)\?shipit-source-id: [a-z0-9]\+$`. -/
def isShipitTrailerLine (l : Str) : Bool :=
  let l2 := l.dropWhile (fun c => isWS c)
  if (s2l "fbshipit-source-id: ").isPrefixOf l2 then
    !(l2.drop 20).isEmpty && (l2.drop 20).all isIdChar
  else if (s2l "shipit-source-id: ").isPrefixOf l2 then
    !(l2.drop 18).isEmpty && (l2.drop 18).all isIdChar
  else false

/-- `git log --grep` with the sync-trailer pattern: some line of the
commit message matches. -/
def grepShipit (body : Str) : Bool := (splitNl body).any isShipitTrailerLine

/-- Model of main.go's locate-last-sync-point loop over a linear
destination history (newest commit first): find the newest grep-match,
test it with `isCommitApplicable` against the DESTINATION repository,
and on failure continue the walk from that commit's parent. -/
def locateLastCommit (r : rules) (srcPatch dstPatch : Digest → Except Str Patch)
    (hist : List Commit) : Except Str (Option Commit) :=
  match hdw : hist.dropWhile (fun c => !grepShipit c.body) with
  | [] => .ok none
  | c :: rest =>
    match r.isCommitApplicable c dstPatch with
    | .error e => .error e
    | .ok true => .ok (some c)
    | .ok false => locateLastCommit r srcPatch dstPatch rest
termination_by hist.length
decreasing_by
  have h1 := length_dropWhile_le (fun c => !grepShipit c.body) hist
  rw [hdw] at h1
  simp only [List.length_cons] at h1
  omega

/-- Modelled from the spec's words, for comparison with
`locateLastCommit`: the same walk, but with the applicability test
re-deriving the patch from the SOURCE repository. -/
def locateLastCommitSpec (r : rules) (srcPatch dstPatch : Digest → Except Str Patch)
    (hist : List Commit) : Except Str (Option Commit) :=
  match hdw : hist.dropWhile (fun c => !grepShipit c.body) with
  | [] => .ok none
  | c :: rest =>
    match r.isCommitApplicable c srcPatch with
    | .error e => .error e
    | .ok true => .ok (some c)
    | .ok false => locateLastCommitSpec r srcPatch dstPatch rest
termination_by hist.length
decreasing_by
  have h1 := length_dropWhile_le (fun c => !grepShipit c.body) hist
  rw [hdw] at h1
  simp only [List.length_cons] at h1
  omega

/-- Model of main.go's candidate-range computation: no last commit
means a full `--no-merges` history; otherwise the newest (last)
sync-trailer id bounds the range
`<id>..master --ancestry-path --no-merges`. -/
def computeCandidates (lastCommit : Option Commit)
    (log : List Str → List Commit) : Except Str (List Commit) :=
  match lastCommit with
  | none => .ok (log [s2l "--no-merges"])
  | some c =>
    match shipitIDs c.body with
    | [] => .error (s2l "no fbshipit-source-id found in commit")
    | id0 :: rest =>
      .ok (log [(id0 :: rest).getLast (by simp) ++ s2l "..master",
        s2l "--ancestry-path", s2l "--no-merges"])

/-- A source commit together with its merge-commit flag, for the
spec-modelled reading of `git log`. -/
structure SrcCommit where
  commit : Commit
  merge : Bool
deriving DecidableEq

/-- Modelled from the spec: the meaning of the two `git log`
invocations the engine issues, over a linear source history listed
newest first. `--no-merges` lists the non-merge commits;
`<digest>..master --ancestry-path --no-merges` lists the non-merge
commits strictly after the named commit. -/
def specLog (history : List SrcCommit) (args : List Str) : List Commit :=
  if args = [s2l "--no-merges"] then
    (history.filter (fun sc => !sc.merge)).map (fun sc => sc.commit)
  else
    match args with
    | [range, ap, nm] =>
      if ap = s2l "--ancestry-path" ∧ nm = s2l "--no-merges" ∧
          (s2l "..master").isSuffixOf range then
        ((history.takeWhile
            (fun sc => sc.commit.digest.hex ≠ range.take (range.length - 8))).filter
          (fun sc => !sc.merge)).map (fun sc => sc.commit)
      else []
    | _ => []

/-- The sync trailer main.go appends: the patch id truncated to 7 hex
characters. -/
def shipitTag (p : Patch) : Str := s2l "fbshipit-source-id: " ++ p.id.hex.take 7

/-- The trailer-appending step of the per-commit loop (main.go): two
newlines first when the body is non-empty, then the trailer. -/
def addTrailer (p : Patch) : Patch :=
  { p with body :=
      (if p.body ≠ [] then p.body ++ '\n' :: '\n' :: [] else p.body) ++ shipitTag p }

/-- The per-commit diff loop of main.go: drop path-stripped diffs,
rewrite the survivors, and compute the strip-message flag (true while
every surviving diff matches a strip-message pattern). -/
def diffLoop (r : rules) : List Diff → List Diff × Bool
  | [] => ([], true)
  | d :: rest =>
    if r.isPathStripped d.path then diffLoop r rest
    else
      ((r.rewriteDiff d) :: (diffLoop r rest).1,
        r.isMessagePathStripped d.path && (diffLoop r rest).2)

/-- The per-commit processing of main.go, after the patch is derived:
append the trailer, run the diff loop, skip the patch when no diff
survives, and stub out subject and body when the strip-message flag
held. -/
def processPatch (r : rules) (p : Patch) : Option Patch :=
  let p1 := addTrailer p
  if (diffLoop r p1.diffs).1 = [] then none
  else
    let p2 := { p1 with diffs := (diffLoop r p1.diffs).1 }
    some (if (diffLoop r p1.diffs).2 then
      { p2 with subject := s2l "Stripped commit",
                body := s2l "Commit message stripped." ++ '\n' :: '\n' :: shipitTag p }
    else p2)

/-- The external operations `Repo.Apply` can run. -/
inductive GitOp where
  | am : Str → GitOp
deriving DecidableEq

/-- Model of `Repo.Apply` (git/repo.go): an empty diff list returns
immediately with no git invocation; otherwise the serialized patch is
fed to one `git am --keep-non-patch --keep-cr` run. -/
def repoApply (p : Patch) : List GitOp :=
  if p.diffs.length = 0 then [] else [GitOp.am (patchWrite p)]

/-! ### List helpers for the engine proofs -/

theorem isPrefixOf_self_append (l t : Str) : l.isPrefixOf (l ++ t) = true := by
  induction l with
  | nil => simp [List.isPrefixOf]
  | cons c l ih =>
    show ((c == c) && l.isPrefixOf (l ++ t)) = true
    rw [ih]
    simp

theorem isSuffixOf_self_append (t x : Str) : t.isSuffixOf (x ++ t) = true := by
  rw [List.isSuffixOf, List.reverse_append]
  exact isPrefixOf_self_append t.reverse x.reverse

theorem splitNl_single (l : Str) (hl : '\n' ∉ l) : splitNl l = [l] := by
  induction l with
  | nil => rfl
  | cons c r ih =>
    have hc : c ≠ '\n' := fun h => hl (h ▸ List.mem_cons_self c r)
    have hr : '\n' ∉ r := fun h => hl (List.mem_cons_of_mem _ h)
    rw [splitNl, if_neg hc, ih hr]

theorem two_le_splitNl_length (x r : Str) :
    2 ≤ (splitNl (x ++ '\n' :: r)).length := by
  induction x with
  | nil =>
    rw [List.nil_append, splitNl, if_pos rfl]
    have h1 := splitNl_ne_nil r
    have h2 := List.length_pos.mpr h1
    simp only [List.length_cons]
    omega
  | cons c x' ih =>
    by_cases hc : c = '\n'
    · subst hc
      rw [List.cons_append, splitNl, if_pos rfl]
      simp only [List.length_cons]
      omega
    · rw [List.cons_append, splitNl, if_neg hc]
      cases hsp : splitNl (x' ++ '\n' :: r) with
      | nil => exact absurd hsp (splitNl_ne_nil _)
      | cons l ls =>
        rw [hsp] at ih
        simp only [List.length_cons] at ih ⊢
        omega

/-- Splitting a string that ends in a newline-free suffix after a
newline: the suffix is exactly the final segment. -/
theorem splitNl_append_last (x r : Str) (hr : '\n' ∉ r) :
    ∃ pre, splitNl (x ++ '\n' :: r) = pre ++ [r] := by
  induction x with
  | nil =>
    refine ⟨[[]], ?_⟩
    rw [List.nil_append, splitNl, if_pos rfl, splitNl_single r hr]
    rfl
  | cons c x' ih =>
    obtain ⟨pre, hpre⟩ := ih
    by_cases hc : c = '\n'
    · subst hc
      refine ⟨[] :: pre, ?_⟩
      rw [List.cons_append, splitNl, if_pos rfl, hpre]
      rfl
    · rw [List.cons_append, splitNl, if_neg hc]
      cases hsp : splitNl (x' ++ '\n' :: r) with
      | nil => exact absurd hsp (splitNl_ne_nil _)
      | cons l ls =>
        rw [hsp] at hpre
        cases pre with
        | nil =>
          exfalso
          have h2 := two_le_splitNl_length x' r
          rw [hsp] at h2
          obtain ⟨rfl, rfl⟩ : l = r ∧ ls = ([] : List Str) := by
            cases hpre; exact ⟨rfl, rfl⟩
          simp at h2
        | cons p0 pre' =>
          obtain ⟨rfl, hls⟩ : l = p0 ∧ ls = pre' ++ [r] := by
            cases hpre; exact ⟨rfl, rfl⟩
          exact ⟨(c :: l) :: pre', by rw [hls]; rfl⟩

/-- Joining the split lines, a newline after each, appends exactly one
newline to the string. -/
theorem flatten_splitNl_newlines (b : Str) :
    ((splitNl b).map (fun l => l ++ ['\n'])).flatten = b ++ ['\n'] := by
  induction b with
  | nil => rfl
  | cons c rest ih =>
    by_cases hc : c = '\n'
    · subst hc
      rw [splitNl, if_pos rfl]
      simp only [List.map_cons, List.flatten_cons]
      rw [ih]
      rfl
    · rw [splitNl, if_neg hc]
      cases hsp : splitNl rest with
      | nil => exact absurd hsp (splitNl_ne_nil rest)
      | cons l ls =>
        rw [hsp] at ih
        simp only [List.map_cons, List.flatten_cons] at ih ⊢
        simp only [List.cons_append]
        exact congrArg (List.cons c) ih

theorem flatten_lines_getLast (f : Str → Str) (ls : List Str) (hne : ls ≠ []) :
    ∃ t, (ls.map (fun l => f l ++ ['\n'])).flatten = t ++ ['\n'] := by
  induction ls with
  | nil => exact absurd rfl hne
  | cons l rest ih =>
    cases rest with
    | nil => exact ⟨f l, by simp⟩
    | cons l2 rest2 =>
      obtain ⟨t, ht⟩ := ih (by simp)
      refine ⟨(f l ++ ['\n']) ++ t, ?_⟩
      show (f l ++ ['\n']) ++ ((l2 :: rest2).map (fun l => f l ++ ['\n'])).flatten = _
      rw [ht, ← List.append_assoc]

theorem foldRewrite_path (l : List rewriteRule) (d : Diff) :
    (l.foldl (fun d rr =>
      if rr.pathRe d.path then { d with body := rr.rewrite d.body } else d) d).path =
      d.path := by
  induction l generalizing d with
  | nil => rfl
  | cons rr l ih =>
    rw [List.foldl_cons, ih]
    split <;> rfl

/-- `rewriteDiff` never changes a diff's path. -/
theorem rewriteDiff_path (r : rules) (d : Diff) :
    (r.rewriteDiff d).path = d.path :=
  foldRewrite_path r.rewrite d

/-- The strip-message flag computed by the diff loop holds exactly
when every surviving diff's path matches a strip-message pattern. -/
theorem diffLoop_stripMessage (r : rules) (ds : List Diff) :
    (diffLoop r ds).2 =
      (diffLoop r ds).1.all (fun d => r.isMessagePathStripped d.path) := by
  induction ds with
  | nil => rfl
  | cons d rest ih =>
    simp only [diffLoop]
    split
    · exact ih
    · simp [List.all_cons, rewriteDiff_path, ih]

/-- The diffs surviving the diff loop: the path-stripped ones removed,
the rest rewritten in order. -/
theorem diffLoop_diffs (r : rules) (ds : List Diff) :
    (diffLoop r ds).1 =
      (ds.filter (fun d => !r.isPathStripped d.path)).map r.rewriteDiff := by
  induction ds with
  | nil => rfl
  | cons d rest ih =>
    simp only [diffLoop, List.filter_cons]
    by_cases h : r.isPathStripped d.path
    · simp [h, ih]
    · simp [h, ih]

theorem lowerHex_isIdChar (c : Char) (h : isLowerHexDigit c = true) :
    isIdChar c = true := by
  have m := mem_of_isLowerHexDigit c h
  simp only [lowerHexChars, s2l, String.data, List.mem_cons, List.not_mem_nil,
    or_false] at m
  rcases m with rfl | rfl | rfl | rfl | rfl | rfl | rfl | rfl | rfl | rfl | rfl |
    rfl | rfl | rfl | rfl | rfl <;> decide

/-- The appended sync trailer is itself a line the locate-phase grep
pattern matches. -/
theorem isShipitTrailerLine_tag (p : Patch) (hlen : p.id.hex.length = 40)
    (hlo : p.id.hex.all isLowerHexDigit = true) :
    isShipitTrailerLine (shipitTag p) = true := by
  rw [shipitTag, isShipitTrailerLine]
  have hdw : (s2l "fbshipit-source-id: " ++ p.id.hex.take 7).dropWhile
      (fun c => isWS c) = s2l "fbshipit-source-id: " ++ p.id.hex.take 7 :=
    dropWhile_eq_self_of_head _ _ _ (by decide)
  simp only [hdw]
  rw [if_pos (isPrefixOf_self_append (s2l "fbshipit-source-id: ") (p.id.hex.take 7))]
  have hdrop : (s2l "fbshipit-source-id: " ++ p.id.hex.take 7).drop 20 =
      p.id.hex.take 7 := List.drop_left (s2l "fbshipit-source-id: ") (p.id.hex.take 7)
  rw [hdrop]
  have htlen : (p.id.hex.take 7).length = 7 := by
    rw [List.length_take, hlen]
    decide
  rw [Bool.and_eq_true]
  constructor
  · cases htk : p.id.hex.take 7 with
    | nil => rw [htk] at htlen; cases htlen
    | cons a b => rfl
  · rw [List.all_eq_true]
    intro c hc
    have hmem := List.take_subset 7 p.id.hex hc
    exact lowerHex_isIdChar c (List.all_eq_true.mp hlo c hmem)

/-! ### Claims C6 through C10 -/

/-- The strip-commit rule of the C6 counterexample, written in
uppercase hex. -/
def upperRule : Str := s2l "ABCDEF0"

def upperRules : rules := ⟨[], [], [upperRule], []⟩

/-- The commit of the C6 counterexample: its digest is the lowercase
hex rendering git produces. -/
def lowerCommit : Commit := ⟨⟨s2l "abcdef0123456789abcdef0123456789abcdef01"⟩, []⟩

/-- C6 counterexample: an uppercase strip-commit rule is accepted by
the rule parser, its lowercase form is a prefix of the commit's
digest, and yet `isStripped` does not match — the comparison is
case-sensitive, not case-insensitive. -/
theorem claim_C6_upper_rule_misses :
    validStripCommitRule upperRule = true ∧
    upperRule.map toLowerHex = s2l "abcdef0" ∧
    (s2l "abcdef0").isPrefixOf lowerCommit.digest.hex = true ∧
    upperRules.isStripped lowerCommit = false := by
  refine ⟨by decide, by decide, by decide, ?_⟩
  rw [rules.isStripped]
  decide

/-- C6 (amended): `isStripped` tests each configured prefix with a
case-sensitive `HasPrefix` against the lowercase digest; a rule
containing an uppercase hex letter therefore never matches a
lowercase digest. -/
theorem claim_C6_strip_case_sensitive (r : rules) (c : Commit) :
    (r.isStripped c = true ↔
      ∃ s ∈ r.stripCommits, s.isPrefixOf c.digest.hex = true) ∧
    (c.digest.hex.all isLowerHexDigit = true →
      ∀ s ∈ r.stripCommits, (∃ ch ∈ s, isUpperHexLetter ch = true) →
        s.isPrefixOf c.digest.hex = false) := by
  constructor
  · rw [rules.isStripped]
    exact List.any_eq_true
  · intro hlo s _hs hup
    obtain ⟨ch, hch, hupch⟩ := hup
    cases hpre : s.isPrefixOf c.digest.hex with
    | false => rfl
    | true =>
      exfalso
      have heq := eq_append_drop_of_isPrefixOf s c.digest.hex hpre
      have hmem : ch ∈ c.digest.hex := heq ▸ List.mem_append_left _ hch
      have hlow := List.all_eq_true.mp hlo ch hmem
      exact not_lower_and_upper_hex ch hlow hupch

/-- The two rewrite rules of the C7 witness. -/
def appendOneRule : rewriteRule := ⟨fun _ => true, fun l => l ++ s2l "1"⟩

def appendTwoRule : rewriteRule := ⟨fun _ => true, fun l => l ++ s2l "2"⟩

def twoRuleSet : rules := ⟨[], [], [], [appendOneRule, appendTwoRule]⟩

def sampleDiff : Diff := ⟨s2l "p", [], s2l "x"⟩

/-- C7: with two rewrite rules declared in order, `rewriteDiff` equals
the second rule's rewrite applied to the diff already rewritten by the
first — sequential composition over the evolving body, not independent
application to the original body. -/
theorem claim_C7_rewrite_compose (R : rules) (r1 r2 : rewriteRule) (d : Diff)
    (hR : R.rewrite = [r1, r2]) (h1 : r1.pathRe d.path = true)
    (h2 : r2.pathRe d.path = true) :
    R.rewriteDiff d =
      ({ R with rewrite := [r2] } : rules).rewriteDiff
        (({ R with rewrite := [r1] } : rules).rewriteDiff d) ∧
    (R.rewriteDiff d).body = r2.rewrite (r1.rewrite d.body) := by
  have hstep1 : ({ R with rewrite := [r1] } : rules).rewriteDiff d =
      { d with body := r1.rewrite d.body } := by
    simp only [rules.rewriteDiff, List.foldl_cons, List.foldl_nil, if_pos h1]
  have hstep2 : ({ R with rewrite := [r2] } : rules).rewriteDiff
      { d with body := r1.rewrite d.body } =
      { d with body := r2.rewrite (r1.rewrite d.body) } := by
    simp only [rules.rewriteDiff, List.foldl_cons, List.foldl_nil]
    rw [show ({ d with body := r1.rewrite d.body } : Diff).path = d.path from rfl,
      if_pos h2]
  have hfull : R.rewriteDiff d = { d with body := r2.rewrite (r1.rewrite d.body) } := by
    rw [rules.rewriteDiff, hR]
    simp only [List.foldl_cons, List.foldl_nil, if_pos h1]
    rw [show ({ d with body := r1.rewrite d.body } : Diff).path = d.path from rfl,
      if_pos h2]
  exact ⟨by rw [hfull, hstep1, hstep2], by rw [hfull]⟩

/-- C7 witness: the composition law at two concrete appending rules. -/
theorem claim_C7_rewrite_compose_witness :
    twoRuleSet.rewriteDiff sampleDiff =
      ({ twoRuleSet with rewrite := [appendTwoRule] } : rules).rewriteDiff
        (({ twoRuleSet with rewrite := [appendOneRule] } : rules).rewriteDiff
          sampleDiff) ∧
    (twoRuleSet.rewriteDiff sampleDiff).body =
      appendTwoRule.rewrite (appendOneRule.rewrite sampleDiff.body) :=
  claim_C7_rewrite_compose twoRuleSet appendOneRule appendTwoRule sampleDiff
    rfl rfl rfl

/-- C8: applying a patch with no diffs runs no git operation at all.  -/
theorem claim_C8_empty_apply (p : Patch) (h : p.diffs.length = 0) :
    repoApply p = [] := by
  rw [repoApply, if_pos h]

/-- C8 witness: the empty-patch no-op at a concrete patch. -/
theorem claim_C8_empty_apply_witness :
    samplePatch.diffs.length = 0 ∧ repoApply samplePatch = [] :=
  ⟨rfl, claim_C8_empty_apply samplePatch rfl⟩

/-- C9: the appended trailer is `fbshipit-source-id: ` plus the id
truncated to 7 hex characters; two newlines separate it from a
non-empty body, an empty body becomes the bare trailer; and the
resulting body is matched by the locate-phase grep pattern. -/
theorem claim_C9_trailer_append (p : Patch) (hlen : p.id.hex.length = 40)
    (hlo : p.id.hex.all isLowerHexDigit = true) :
    shipitTag p = s2l "fbshipit-source-id: " ++ p.id.hex.take 7 ∧
    (((addTrailer p).body = p.body ++ '\n' :: '\n' :: shipitTag p ∧ p.body ≠ []) ∨
      ((addTrailer p).body = shipitTag p ∧ p.body = [])) ∧
    grepShipit (addTrailer p).body = true := by
  have htag := isShipitTrailerLine_tag p hlen hlo
  have htagnl : '\n' ∉ shipitTag p := by
    rw [shipitTag]
    intro hm
    rcases List.mem_append.mp hm with hm | hm
    · revert hm; decide
    · exact lowerHex_no_nl _ hlo (List.take_subset 7 p.id.hex hm)
  refine ⟨rfl, ?_, ?_⟩
  · by_cases hb : p.body = []
    · right
      refine ⟨?_, hb⟩
      show (if p.body ≠ [] then p.body ++ '\n' :: '\n' :: [] else p.body) ++
        shipitTag p = shipitTag p
      rw [if_neg (by simp [hb]), hb]
      rfl
    · left
      refine ⟨?_, hb⟩
      show (if p.body ≠ [] then p.body ++ '\n' :: '\n' :: [] else p.body) ++
        shipitTag p = p.body ++ '\n' :: '\n' :: shipitTag p
      rw [if_pos hb]
      simp [List.append_assoc]
  · by_cases hb : p.body = []
    · show ((splitNl ((if p.body ≠ [] then p.body ++ '\n' :: '\n' :: [] else p.body) ++
        shipitTag p)).any isShipitTrailerLine) = true
      rw [if_neg (by simp [hb]), hb, List.nil_append,
        splitNl_single (shipitTag p) htagnl]
      simp [htag]
    · show ((splitNl ((if p.body ≠ [] then p.body ++ '\n' :: '\n' :: [] else p.body) ++
        shipitTag p)).any isShipitTrailerLine) = true
      rw [if_pos hb]
      have hsh : ((p.body ++ '\n' :: '\n' :: [] : Str) ++ shipitTag p) =
          (p.body ++ ['\n']) ++ '\n' :: shipitTag p := by
        simp [List.append_assoc]
      rw [hsh]
      obtain ⟨pre, hpre⟩ := splitNl_append_last (p.body ++ ['\n']) (shipitTag p) htagnl
      rw [hpre, List.any_eq_true]
      exact ⟨shipitTag p, List.mem_append_right _ (List.mem_cons_self _ _), htag⟩

/-- C9 witness: the trailer law at a concrete patch. -/
theorem claim_C9_trailer_append_witness :
    shipitTag samplePatch = s2l "fbshipit-source-id: " ++ samplePatch.id.hex.take 7 ∧
    (((addTrailer samplePatch).body =
        samplePatch.body ++ '\n' :: '\n' :: shipitTag samplePatch ∧
        samplePatch.body ≠ []) ∨
      ((addTrailer samplePatch).body = shipitTag samplePatch ∧
        samplePatch.body = [])) ∧
    grepShipit (addTrailer samplePatch).body = true :=
  claim_C9_trailer_append samplePatch (by decide) (by decide)

/-- The identity rewrite rule of the C10 witness. -/
def idLineRule : rewriteRule := ⟨fun _ => true, fun l => l⟩

/-- C10: `rewrite` is the concatenation of the per-line replacements,
each followed by a newline byte; every result ends in a newline; when
the replacement leaves every line of the body unchanged the result is
the body plus exactly one newline byte — one byte of growth, and never
the identity. -/
theorem claim_C10_rewrite_lines (r : rewriteRule) (b : Str)
    (hid : ∀ l ∈ splitNl b, r.lineRepl l = l) :
    r.rewrite b = ((splitNl b).map (fun line => r.lineRepl line ++ ['\n'])).flatten ∧
    (∀ b2 : Str, ∃ t, r.rewrite b2 = t ++ ['\n']) ∧
    r.rewrite b = b ++ ['\n'] ∧
    (r.rewrite b).length = b.length + 1 ∧
    r.rewrite b ≠ b := by
  have hmap : (splitNl b).map (fun line => r.lineRepl line ++ ['\n']) =
      (splitNl b).map (fun line => line ++ ['\n']) :=
    List.map_congr_left (fun l hl => by rw [hid l hl])
  have hb : r.rewrite b = b ++ ['\n'] := by
    rw [rewriteRule.rewrite, hmap, flatten_splitNl_newlines]
  refine ⟨rfl, ?_, hb, ?_, ?_⟩
  · intro b2
    obtain ⟨t, ht⟩ := flatten_lines_getLast r.lineRepl (splitNl b2) (splitNl_ne_nil b2)
    exact ⟨t, by rw [rewriteRule.rewrite]; exact ht⟩
  · rw [hb]; simp
  · rw [hb]
    intro hEq
    have hlen := congrArg List.length hEq
    simp at hlen

/-- C10 witness: the rewrite law at the identity replacement on a
concrete body. -/
theorem claim_C10_rewrite_lines_witness :
    idLineRule.rewrite (s2l "ab") =
      ((splitNl (s2l "ab")).map
        (fun line => idLineRule.lineRepl line ++ ['\n'])).flatten ∧
    (∀ b2 : Str, ∃ t, idLineRule.rewrite b2 = t ++ ['\n']) ∧
    idLineRule.rewrite (s2l "ab") = s2l "ab" ++ ['\n'] ∧
    (idLineRule.rewrite (s2l "ab")).length = (s2l "ab").length + 1 ∧
    idLineRule.rewrite (s2l "ab") ≠ s2l "ab" :=
  claim_C10_rewrite_lines idLineRule (s2l "ab") (fun l _ => rfl)

/-! ### Claim C5: message stripping -/

/-- C5: whenever the per-commit processing yields a patch, the
surviving diff list is non-empty; if every surviving diff's path
matches a strip-message pattern the subject becomes the fixed stub and
the body the stub text plus the trailer, and if some surviving diff
matches no pattern the subject and trailer-extended body are kept. -/
theorem claim_C5_message_strip (r : rules) (p q : Patch)
    (h : processPatch r p = some q) :
    q.diffs ≠ [] ∧
    ((∀ d ∈ q.diffs, r.isMessagePathStripped d.path = true) →
      q.subject = s2l "Stripped commit" ∧
      q.body = s2l "Commit message stripped." ++ '\n' :: '\n' :: shipitTag p) ∧
    ((∃ d ∈ q.diffs, r.isMessagePathStripped d.path = false) →
      q.subject = p.subject ∧ q.body = (addTrailer p).body) := by
  simp only [processPatch] at h
  by_cases hnil : (diffLoop r (addTrailer p).diffs).1 = []
  · rw [if_pos hnil] at h
    cases h
  · rw [if_neg hnil] at h
    cases hsm : (diffLoop r (addTrailer p).diffs).2 with
    | true =>
      rw [if_pos (show (diffLoop r (addTrailer p).diffs).2 = true from hsm)] at h
      obtain rfl :
          ({ { addTrailer p with diffs := (diffLoop r (addTrailer p).diffs).1 } with
              subject := s2l "Stripped commit",
              body := s2l "Commit message stripped." ++ '\n' :: '\n' :: shipitTag p } :
            Patch) = q := by
        cases h; rfl
      refine ⟨hnil, fun _ => ⟨rfl, rfl⟩, ?_⟩
      rintro ⟨d, hd, hdf⟩
      have hall := diffLoop_stripMessage r (addTrailer p).diffs
      rw [hsm] at hall
      have h2 : r.isMessagePathStripped d.path = true :=
        List.all_eq_true.mp hall.symm d hd
      rw [hdf] at h2
      cases h2
    | false =>
      rw [if_neg (show ¬(diffLoop r (addTrailer p).diffs).2 = true from by
        rw [hsm]; simp)] at h
      obtain rfl :
          ({ addTrailer p with diffs := (diffLoop r (addTrailer p).diffs).1 } :
            Patch) = q := by
        cases h; rfl
      refine ⟨hnil, ?_, fun _ => ⟨rfl, rfl⟩⟩
      intro hall2
      exfalso
      have hall := diffLoop_stripMessage r (addTrailer p).diffs
      rw [hsm] at hall
      have hy : (diffLoop r (addTrailer p).diffs).1.all
          (fun d => r.isMessagePathStripped d.path) = true := by
        rw [List.all_eq_true]
        intro d hd
        exact hall2 d hd
      rw [← hall] at hy
      cases hy

/-- The C5 witness's rule set: every path matches the strip-message
pattern. -/
def stripAllMessages : rules := ⟨[], [fun _ => true], [], []⟩

def c5patch : Patch :=
  ⟨⟨sampleHex⟩, renderAddr sampleAddr, ⟨7, 1, 2006, 15, 4, 5, true, 7, 0⟩,
    s2l "subject", s2l "hello", [sampleDiff]⟩

/-- The stubbed patch the C5 witness's processing produces. -/
def c5result : Patch :=
  ⟨c5patch.id, c5patch.author, c5patch.time, s2l "Stripped commit",
    s2l "Commit message stripped." ++ '\n' :: '\n' :: shipitTag c5patch,
    [sampleDiff]⟩

/-- C5 witness: the strip-message law at a concrete patch whose single
diff matches the pattern. -/
theorem claim_C5_message_strip_witness :
    c5result.diffs ≠ [] ∧
    ((∀ d ∈ c5result.diffs, stripAllMessages.isMessagePathStripped d.path = true) →
      c5result.subject = s2l "Stripped commit" ∧
      c5result.body = s2l "Commit message stripped." ++ '\n' :: '\n' ::
        shipitTag c5patch) ∧
    ((∃ d ∈ c5result.diffs, stripAllMessages.isMessagePathStripped d.path = false) →
      c5result.subject = c5patch.subject ∧
      c5result.body = (addTrailer c5patch).body) :=
  claim_C5_message_strip stripAllMessages c5patch c5result rfl

/-! ### Claim C2: the candidate range -/

theorem computeCandidates_some (c : Commit) (log : List Str → List Commit)
    (id0 : Str) (rest : List Str) (h : shipitIDs c.body = id0 :: rest) :
    computeCandidates (some c) log =
      .ok (log [(id0 :: rest).getLast (by simp) ++ s2l "..master",
        s2l "--ancestry-path", s2l "--no-merges"]) := by
  simp only [computeCandidates]
  rw [h]

theorem specLog_noMerges (history : List SrcCommit) :
    specLog history [s2l "--no-merges"] =
      (history.filter (fun sc => !sc.merge)).map (fun sc => sc.commit) := by
  rfl

theorem specLog_range (history : List SrcCommit) (d : Str) :
    specLog history
        [d ++ s2l "..master", s2l "--ancestry-path", s2l "--no-merges"] =
      ((history.takeWhile (fun sc => sc.commit.digest.hex ≠ d)).filter
        (fun sc => !sc.merge)).map (fun sc => sc.commit) := by
  have hne : ([d ++ s2l "..master", s2l "--ancestry-path", s2l "--no-merges"] :
      List Str) ≠ [s2l "--no-merges"] := by simp
  rw [specLog, if_neg hne]
  have htake : (d ++ s2l "..master").take ((d ++ s2l "..master").length - 8) = d := by
    have h8 : (s2l "..master").length = 8 := rfl
    rw [List.length_append, h8, Nat.add_sub_cancel]
    exact List.take_left d (s2l "..master")
  show (if s2l "--ancestry-path" = s2l "--ancestry-path" ∧
      s2l "--no-merges" = s2l "--no-merges" ∧
      (s2l "..master").isSuffixOf (d ++ s2l "..master") = true then
      ((history.takeWhile (fun sc => sc.commit.digest.hex ≠
          (d ++ s2l "..master").take ((d ++ s2l "..master").length - 8))).filter
        (fun sc => !sc.merge)).map (fun sc => sc.commit)
    else []) = _
  rw [if_pos ⟨rfl, rfl, isSuffixOf_self_append (s2l "..master") d⟩, htake]

/-- C2: with a located last commit, the candidates are exactly the
non-merge source commits strictly after the digest named by the NEWEST
(last) sync-trailer id of that commit; with none, the full non-merge
source history. -/
theorem claim_C2_candidate_range (history : List SrcCommit) (c : Commit)
    (ids : List Str) (hids : shipitIDs c.body = ids) (hne : ids ≠ []) :
    computeCandidates (some c) (specLog history) =
      .ok (((history.takeWhile
          (fun sc => sc.commit.digest.hex ≠ ids.getLast hne)).filter
        (fun sc => !sc.merge)).map (fun sc => sc.commit)) ∧
    computeCandidates none (specLog history) =
      .ok ((history.filter (fun sc => !sc.merge)).map (fun sc => sc.commit)) := by
  constructor
  · cases ids with
    | nil => exact absurd rfl hne
    | cons id0 rest =>
      rw [computeCandidates_some c (specLog history) id0 rest hids,
        specLog_range history ((id0 :: rest).getLast (by simp))]
  · rw [show computeCandidates none (specLog history) =
      .ok (specLog history [s2l "--no-merges"]) from rfl, specLog_noMerges]

theorem takeWhile_all {α : Type} (p : α → Bool) (l : List α)
    (h : ∀ x ∈ l, p x = true) : l.takeWhile p = l := by
  induction l with
  | nil => rfl
  | cons a l ih =>
    rw [List.takeWhile_cons, if_pos (h a (List.mem_cons_self a l)),
      ih (fun x hx => h x (List.mem_cons_of_mem _ hx))]

theorem dropWhile_all {α : Type} (p : α → Bool) (l : List α)
    (h : ∀ x ∈ l, p x = true) : l.dropWhile p = [] := by
  induction l with
  | nil => rfl
  | cons a l ih =>
    rw [List.dropWhile_cons, if_pos (h a (List.mem_cons_self a l)),
      ih (fun x hx => h x (List.mem_cons_of_mem _ hx))]

theorem shipitIDs_nil : shipitIDs [] = [] := by
  rw [shipitIDs.eq_def]

theorem shipitIDs_cons (c : Char) (rest : Str) :
    shipitIDs (c :: rest) =
      (if (s2l "fbshipit-source-id: ").isPrefixOf (c :: rest) &&
          headIdChar ((c :: rest).drop 20) then
        ((c :: rest).drop 20).takeWhile isIdChar ::
          shipitIDs (((c :: rest).drop 20).dropWhile isIdChar)
      else if (s2l "shipit-source-id: ").isPrefixOf (c :: rest) &&
          headIdChar ((c :: rest).drop 18) then
        ((c :: rest).drop 18).takeWhile isIdChar ::
          shipitIDs (((c :: rest).drop 18).dropWhile isIdChar)
      else shipitIDs rest) := by
  rw [shipitIDs.eq_def]

/-- The id scan skips a newline. -/
theorem shipitIDs_nl (t : Str) : shipitIDs ('\n' :: t) = shipitIDs t := by
  rw [shipitIDs_cons]
  have hA : (s2l "fbshipit-source-id: ").isPrefixOf ('\n' :: t) = false := by
    show (('f' == '\n') && (s2l "bshipit-source-id: ").isPrefixOf t) = false
    rw [show ('f' == '\n') = false from rfl]
    simp
  have hB : (s2l "shipit-source-id: ").isPrefixOf ('\n' :: t) = false := by
    show (('s' == '\n') && (s2l "hipit-source-id: ").isPrefixOf t) = false
    rw [show ('s' == '\n') = false from rfl]
    simp
  rw [hA, hB]
  simp

/-- The id scan captures a plain `shipit-source-id: ` run. -/
theorem shipitIDs_plain (run tail2 : Str) (hrun : run ≠ [])
    (hall : ∀ x ∈ run, isIdChar x = true) (htail : headIdChar tail2 = false) :
    shipitIDs (s2l "shipit-source-id: " ++ (run ++ tail2)) =
      run :: shipitIDs tail2 := by
  rw [show (s2l "shipit-source-id: " ++ (run ++ tail2) : Str) =
      's' :: (s2l "hipit-source-id: " ++ (run ++ tail2)) from rfl]
  rw [shipitIDs_cons]
  have hA : (s2l "fbshipit-source-id: ").isPrefixOf
      ('s' :: (s2l "hipit-source-id: " ++ (run ++ tail2))) = false := by
    show (('f' == 's') && _) = false
    rw [show ('f' == 's') = false from rfl]
    simp
  have hB : (s2l "shipit-source-id: ").isPrefixOf
      ('s' :: (s2l "hipit-source-id: " ++ (run ++ tail2))) = true :=
    isPrefixOf_self_append (s2l "shipit-source-id: ") (run ++ tail2)
  have hdrop : (('s' :: (s2l "hipit-source-id: " ++ (run ++ tail2))) : Str).drop 18 =
      run ++ tail2 :=
    List.drop_left (s2l "shipit-source-id: ") (run ++ tail2)
  have hhead : headIdChar
      ((('s' :: (s2l "hipit-source-id: " ++ (run ++ tail2))) : Str).drop 18) = true := by
    rw [hdrop]
    cases run with
    | nil => exact absurd rfl hrun
    | cons r0 rrest =>
      show isIdChar r0 = true
      exact hall r0 (List.mem_cons_self _ _)
  rw [hA, hB, hhead]
  simp only [Bool.false_and, Bool.and_true]
  rw [if_neg (by simp), if_pos trivial, hdrop]
  cases tail2 with
  | nil =>
    rw [List.append_nil, takeWhile_all isIdChar run hall, dropWhile_all isIdChar run hall]
  | cons t0 ts =>
    rw [takeWhile_append_stop isIdChar run t0 ts hall htail,
      dropWhile_append_stop isIdChar run t0 ts hall htail]

/-- The id scan captures an `fbshipit-source-id: ` run. -/
theorem shipitIDs_fb (run tail2 : Str) (hrun : run ≠ [])
    (hall : ∀ x ∈ run, isIdChar x = true) (htail : headIdChar tail2 = false) :
    shipitIDs (s2l "fbshipit-source-id: " ++ (run ++ tail2)) =
      run :: shipitIDs tail2 := by
  rw [show (s2l "fbshipit-source-id: " ++ (run ++ tail2) : Str) =
      'f' :: (s2l "bshipit-source-id: " ++ (run ++ tail2)) from rfl]
  rw [shipitIDs_cons]
  have hA : (s2l "fbshipit-source-id: ").isPrefixOf
      ('f' :: (s2l "bshipit-source-id: " ++ (run ++ tail2))) = true :=
    isPrefixOf_self_append (s2l "fbshipit-source-id: ") (run ++ tail2)
  have hdrop : (('f' :: (s2l "bshipit-source-id: " ++ (run ++ tail2))) : Str).drop 20 =
      run ++ tail2 :=
    List.drop_left (s2l "fbshipit-source-id: ") (run ++ tail2)
  have hhead : headIdChar
      ((('f' :: (s2l "bshipit-source-id: " ++ (run ++ tail2))) : Str).drop 20) = true := by
    rw [hdrop]
    cases run with
    | nil => exact absurd rfl hrun
    | cons r0 rrest =>
      show isIdChar r0 = true
      exact hall r0 (List.mem_cons_self _ _)
  rw [hA, hhead]
  simp only [Bool.true_and]
  rw [if_pos trivial, hdrop]
  cases tail2 with
  | nil =>
    rw [List.append_nil, takeWhile_all isIdChar run hall, dropWhile_all isIdChar run hall]
  | cons t0 ts =>
    rw [takeWhile_append_stop isIdChar run t0 ts hall htail,
      dropWhile_append_stop isIdChar run t0 ts hall htail]

/-- The commit of the C2 witness: two sync trailers, chronologically
ascending, so the newest id is the second. -/
def twoTrailerCommit : Commit :=
  ⟨⟨sampleHex⟩, s2l "shipit-source-id: " ++ (s2l "a" ++ ('\n' ::
    (s2l "fbshipit-source-id: " ++ (s2l "b" ++ ([] : Str)))))⟩

def c2history : List SrcCommit :=
  [⟨⟨⟨sampleHex⟩, []⟩, false⟩]

/-- C2 witness: the candidate-range law at a concrete commit carrying
two trailer ids. -/
theorem claim_C2_candidate_range_witness :
    computeCandidates (some twoTrailerCommit) (specLog c2history) =
      .ok (((c2history.takeWhile
          (fun sc => sc.commit.digest.hex ≠
            ([s2l "a", s2l "b"].getLast (by simp)))).filter
        (fun sc => !sc.merge)).map (fun sc => sc.commit)) ∧
    computeCandidates none (specLog c2history) =
      .ok ((c2history.filter (fun sc => !sc.merge)).map (fun sc => sc.commit)) :=
  claim_C2_candidate_range c2history twoTrailerCommit [s2l "a", s2l "b"]
    (by
      show shipitIDs (s2l "shipit-source-id: " ++ (s2l "a" ++ ('\n' ::
        (s2l "fbshipit-source-id: " ++ (s2l "b" ++ ([] : Str)))))) = [s2l "a", s2l "b"]
      rw [shipitIDs_plain (s2l "a") _ (by decide) (by decide) (by decide),
        shipitIDs_nl,
        shipitIDs_fb (s2l "b") [] (by decide) (by decide) (by decide),
        shipitIDs_nil])
    (by simp)

/-! ### Claim C3: locating the last sync point -/

/-- The boolean outcome of a non-erroring applicability test. -/
def applicableB (r : rules) (repoPatch : Digest → Except Str Patch)
    (c : Commit) : Bool :=
  match r.isCommitApplicable c repoPatch with
  | .ok true => true
  | _ => false

theorem locateLast_nil_case (r : rules) (sp dp : Digest → Except Str Patch)
    (hist : List Commit)
    (h : hist.dropWhile (fun c => !grepShipit c.body) = []) :
    locateLastCommit r sp dp hist = .ok none := by
  rw [locateLastCommit]
  split
  · rfl
  · rename_i c rest hdw
    rw [h] at hdw
    cases hdw

theorem locateLast_cons_case (r : rules) (sp dp : Digest → Except Str Patch)
    (hist : List Commit) (c : Commit) (rest : List Commit)
    (h : hist.dropWhile (fun c => !grepShipit c.body) = c :: rest) :
    locateLastCommit r sp dp hist =
      match r.isCommitApplicable c dp with
      | .error e => .error e
      | .ok true => .ok (some c)
      | .ok false => locateLastCommit r sp dp rest := by
  rw [locateLastCommit]
  split
  · rename_i hdw
    rw [h] at hdw
    cases hdw
  · rename_i c2 rest2 hdw
    rw [h] at hdw
    cases hdw
    rfl

theorem locateLastSpec_nil_case (r : rules) (sp dp : Digest → Except Str Patch)
    (hist : List Commit)
    (h : hist.dropWhile (fun c => !grepShipit c.body) = []) :
    locateLastCommitSpec r sp dp hist = .ok none := by
  rw [locateLastCommitSpec]
  split
  · rfl
  · rename_i c rest hdw
    rw [h] at hdw
    cases hdw

theorem locateLastSpec_cons_case (r : rules) (sp dp : Digest → Except Str Patch)
    (hist : List Commit) (c : Commit) (rest : List Commit)
    (h : hist.dropWhile (fun c => !grepShipit c.body) = c :: rest) :
    locateLastCommitSpec r sp dp hist =
      match r.isCommitApplicable c sp with
      | .error e => .error e
      | .ok true => .ok (some c)
      | .ok false => locateLastCommitSpec r sp dp rest := by
  rw [locateLastCommitSpec]
  split
  · rename_i hdw
    rw [h] at hdw
    cases hdw
  · rename_i c2 rest2 hdw
    rw [h] at hdw
    cases hdw
    rfl

theorem filter_grep_dropWhile (hist : List Commit) :
    hist.filter (fun c => grepShipit c.body) =
      match hist.dropWhile (fun c => !grepShipit c.body) with
      | [] => []
      | c :: rest => c :: rest.filter (fun c => grepShipit c.body) := by
  induction hist with
  | nil => rfl
  | cons a l ih =>
    cases hg : grepShipit a.body with
    | true =>
      rw [List.filter_cons, List.dropWhile_cons]
      simp [hg]
    | false =>
      rw [List.filter_cons, List.dropWhile_cons]
      simp [hg, ih]

theorem locateLast_eq_find_aux (r : rules) (sp dp : Digest → Except Str Patch) :
    ∀ (n : Nat) (hist : List Commit), hist.length ≤ n →
      (∀ c ∈ hist, ∃ b, r.isCommitApplicable c dp = .ok b) →
      locateLastCommit r sp dp hist =
        .ok ((hist.filter (fun c => grepShipit c.body)).find?
          (applicableB r dp)) := by
  intro n
  induction n with
  | zero =>
    intro hist hlen _hok
    obtain rfl : hist = [] := List.length_eq_zero.mp (Nat.le_zero.mp hlen)
    rw [locateLast_nil_case r sp dp [] rfl]
    rfl
  | succ n ih =>
    intro hist hlen hok
    cases hdw : hist.dropWhile (fun c => !grepShipit c.body) with
    | nil =>
      rw [locateLast_nil_case r sp dp hist hdw, filter_grep_dropWhile hist, hdw]
      rfl
    | cons c rest =>
      rw [locateLast_cons_case r sp dp hist c rest hdw,
        filter_grep_dropWhile hist, hdw]
      have hcmem : c ∈ hist :=
        mem_of_mem_dropWhile _ _ _ (by rw [hdw]; exact List.mem_cons_self _ _)
      obtain ⟨b, hb⟩ := hok c hcmem
      rw [hb]
      cases b with
      | true =>
        have hab : applicableB r dp c = true := by rw [applicableB, hb]
        rw [List.find?_cons_of_pos _ hab]
      | false =>
        have hab : applicableB r dp c = false := by rw [applicableB, hb]
        rw [List.find?_cons_of_neg _ (by rw [hab]; simp)]
        have hlen2 : rest.length ≤ n := by
          have h1 := length_dropWhile_le (fun c => !grepShipit c.body) hist
          rw [hdw] at h1
          simp only [List.length_cons] at h1
          omega
        have hok2 : ∀ c2 ∈ rest, ∃ b2, r.isCommitApplicable c2 dp = .ok b2 := by
          intro c2 hc2
          exact hok c2 (mem_of_mem_dropWhile _ _ _
            (by rw [hdw]; exact List.mem_cons_of_mem _ hc2))
        exact ih rest hlen2 hok2

/-- C3 (amended): over a linear destination history the locate walk
returns the first grep-matching commit accepted by the applicability
test against the DESTINATION repository, skipping rejected matches by
continuing at their parents; and the test accepts exactly the
non-strip-excluded commits with at least one diff surviving the
path-strip rules. -/
theorem claim_C3_locate_walk (r : rules) (sp dp : Digest → Except Str Patch)
    (hist : List Commit)
    (hok : ∀ c ∈ hist, ∃ b, r.isCommitApplicable c dp = .ok b) :
    locateLastCommit r sp dp hist =
      .ok ((hist.filter (fun c => grepShipit c.body)).find?
        (applicableB r dp)) ∧
    (∀ c patch, dp c.digest = .ok patch →
      (applicableB r dp c = true ↔
        r.isStripped c = false ∧
          ∃ d ∈ patch.diffs, r.isPathStripped d.path = false)) := by
  refine ⟨locateLast_eq_find_aux r sp dp hist.length hist le_rfl hok, ?_⟩
  intro c patch hdp
  rw [applicableB, rules.isCommitApplicable]
  cases hstr : r.isStripped c with
  | true =>
    rw [if_pos rfl]
    simp
  | false =>
    rw [if_neg (by simp), hdp]
    simp only
    constructor
    · intro hm
      refine ⟨trivial, ?_⟩
      have hcount : 0 < patch.diffs.countP (fun d => !r.isPathStripped d.path) := by
        by_cases hc : 0 < patch.diffs.countP (fun d => !r.isPathStripped d.path)
        · exact hc
        · rw [decide_eq_false hc] at hm
          simp at hm
      obtain ⟨d, hd2, hp⟩ := List.countP_pos.mp hcount
      exact ⟨d, hd2, by simpa using hp⟩
    · rintro ⟨-, d, hd2, hp⟩
      have hcount : 0 < patch.diffs.countP (fun d => !r.isPathStripped d.path) :=
        List.countP_pos.mpr ⟨d, hd2, by simp [hp]⟩
      rw [decide_eq_true hcount]

def someTime : GitTime := ⟨7, 1, 2006, 15, 4, 5, true, 7, 0⟩

def pathXDiff : Diff := ⟨s2l "x", [], []⟩

def pathYDiff : Diff := ⟨s2l "y", [], []⟩

/-- The rule set of the C3 counterexample: paths equal to `x` are
stripped. -/
def stripXRules : rules := ⟨[fun p => p == s2l "x"], [], [], []⟩

/-- In the source repository the commit's patch touches only the
stripped path `x`. -/
def srcRepoPatch : Digest → Except Str Patch :=
  fun _ => .ok ⟨⟨sampleHex⟩, [], someTime, s2l "s", [], [pathXDiff]⟩

/-- In the destination repository the commit's patch touches the
surviving path `y`. -/
def dstRepoPatch : Digest → Except Str Patch :=
  fun _ => .ok ⟨⟨sampleHex⟩, [], someTime, s2l "s", [], [pathYDiff]⟩

def trailerCommit : Commit := ⟨⟨sampleHex⟩, s2l "shipit-source-id: aaaaaaa"⟩

/-- C3 counterexample: the walk accepts a commit whose destination
patch survives the strip rules even though its source patch is fully
stripped — the applicability test runs against the destination, not
the source as the specified walk would. -/
theorem claim_C3_dst_not_src :
    locateLastCommit stripXRules srcRepoPatch dstRepoPatch [trailerCommit] =
      .ok (some trailerCommit) ∧
    locateLastCommitSpec stripXRules srcRepoPatch dstRepoPatch [trailerCommit] =
      .ok none := by
  have hdw : ([trailerCommit].dropWhile (fun c => !grepShipit c.body)) =
      trailerCommit :: [] := by decide
  constructor
  · rw [locateLast_cons_case stripXRules srcRepoPatch dstRepoPatch [trailerCommit]
      trailerCommit [] hdw]
    rfl
  · rw [locateLastSpec_cons_case stripXRules srcRepoPatch dstRepoPatch [trailerCommit]
      trailerCommit [] hdw]
    show locateLastCommitSpec stripXRules srcRepoPatch dstRepoPatch [] = .ok none
    exact locateLastSpec_nil_case stripXRules srcRepoPatch dstRepoPatch [] rfl

def hexB : Str := s2l "bbbbbbbbbbbbbbbbbbbbbbbbbbbbbbbbbbbbbbbb"

def trailerCommitB : Commit := ⟨⟨hexB⟩, s2l "fbshipit-source-id: bbbbbbb"⟩

/-- The destination lookup of the C3 witness: the first commit's patch
is fully stripped, the second one survives. -/
def dstRepoPatchAB : Digest → Except Str Patch :=
  fun dg => if dg.hex = sampleHex
    then .ok ⟨⟨sampleHex⟩, [], someTime, s2l "s", [], [pathXDiff]⟩
    else .ok ⟨⟨hexB⟩, [], someTime, s2l "s", [], [pathYDiff]⟩

/-- C3 witness: the walk characterization at a concrete two-commit
history whose newer trailer commit is rejected. -/
theorem claim_C3_locate_walk_witness :
    locateLastCommit stripXRules srcRepoPatch dstRepoPatchAB
        [trailerCommit, trailerCommitB] =
      .ok (([trailerCommit, trailerCommitB].filter
          (fun c => grepShipit c.body)).find?
        (applicableB stripXRules dstRepoPatchAB)) ∧
    (∀ c patch, dstRepoPatchAB c.digest = .ok patch →
      (applicableB stripXRules dstRepoPatchAB c = true ↔
        stripXRules.isStripped c = false ∧
          ∃ d ∈ patch.diffs, stripXRules.isPathStripped d.path = false)) :=
  claim_C3_locate_walk stripXRules srcRepoPatch dstRepoPatchAB
    [trailerCommit, trailerCommitB]
    (by
      intro c hc
      rcases List.mem_cons.mp hc with rfl | hc
      · exact ⟨false, rfl⟩
      rcases List.mem_cons.mp hc with rfl | hc
      · exact ⟨true, rfl⟩
      · simp at hc)

end Grit
